import Mathlib

/-!
Verification of the link-rewrite pipeline of `bot.py` (a Discord link-rewriter).

The development shallowly embeds, over `List Char`:
  * the parts of CPython 3.11's `urllib.parse` that the bot uses
    (`urlparse`, `urlunparse`, and the `hostname` accessor),
  * the bot's rewriting configuration (`DEFAULT_MIRRORS`, `SKIP_HOSTS`),
  * the rewrite functions `_pick_source`, `_resolve_instagram_share`,
    `_rewrite_instagram`, `_rewrite_one`, the rewrite loop of `on_message`,
  * the text helpers `_compact_ws`, `_truncate`,
  * the metadata extractor `_parse_ig_from_og` / `_extract_og_twitter_meta`
    (HTML is represented post-parse, as the meta tags and ld+json script
    payloads that BeautifulSoup would deliver),
  * the repost formatter `_format_repost`.

Strings are modelled as `List Char` (Python `str` is a sequence of code
points, and `len`/slicing count code points, as `List Char` does).  Network
effects are modelled by passing request outcomes as explicit arguments.
Python exceptions are modelled with `Option`/`Except`-style results: `none`
at the outer level of a fallible function means "raised".
-/

/-- Chars abbreviates the Python string model used throughout. -/
abbrev Chars := List Char

/-- cs converts a Lean string literal to the `List Char` model. -/
def cs (s : String) : Chars := s.data

/-! Character-class helpers mirroring CPython. -/

/-- tabCrLf is true for the characters `_UNSAFE_URL_BYTES_TO_REMOVE`
removed by `urllib.parse.urlsplit` (tab, CR, LF). -/
def tabCrLf (c : Char) : Bool := c = '\t' || c = '\r' || c = '\n'

/-- schemeChar is true for `urllib.parse.scheme_chars`
(ASCII letters, digits, and the three chars plus, minus, dot). -/
def schemeChar (c : Char) : Bool := c.isAlpha || c.isDigit || c = '+' || c = '-' || c = '.'

/-- pyWs is true for the ASCII characters matched by Python's `\s` (and
stripped by `str.strip()`): space, tab, newline, CR, vertical tab, form feed.
The rare non-ASCII Unicode whitespace also accepted by Python is not
modelled; every string the claims touch is ASCII. -/
def pyWs (c : Char) : Bool :=
  c = ' ' || c = '\t' || c = '\n' || c = '\r' || c = '\x0b' || c = '\x0c'

/-- c0sp is true for `_WHATWG_C0_CONTROL_OR_SPACE` (code points 0x00
through 0x20), which `urlsplit` strips from the left of the URL. -/
def c0sp (c : Char) : Bool := c.toNat ≤ 32

/-- headIsAlpha tests `url[0].isascii() and url[0].isalpha()` from
`urlsplit` (Lean's `Char.isAlpha` is exactly ASCII-alphabetic). -/
def headIsAlpha : Chars → Bool
  | [] => false
  | c :: _ => c.isAlpha

/-! Generic list-splitting helpers used to transcribe `urllib.parse`. -/

/-- splitOnceL sep l is Python's
`url.split(sep, 1) if sep in url else (url, '')`: the part before the
first occurrence of `sep`, and the part after it (empty when absent;
Python's conditional split yields the same pair, since a missing separator
leaves the second component as the empty string). -/
def splitOnceL (sep : Char) (l : Chars) : Chars × Chars :=
  (l.takeWhile (· ≠ sep), (l.dropWhile (· ≠ sep)).tail)

/-- partitionAt models Python's `str.partition(sep)`: the part before
the first `sep`, whether `sep` occurred, and the part after it. -/
def partitionAt (sep : Char) (l : Chars) : Chars × Bool × Chars :=
  match l.dropWhile (· ≠ sep) with
  | [] => (l.takeWhile (· ≠ sep), false, [])
  | _ :: r => (l.takeWhile (· ≠ sep), true, r)

/-- afterLastAt is the third component of Python's `netloc.rpartition(sep)`:
everything after the last occurrence of `sep`, or the whole string if `sep`
does not occur. -/
def afterLastAt (sep : Char) (l : Chars) : Chars :=
  (l.reverse.takeWhile (· ≠ sep)).reverse

/-! The `urllib.parse` model (CPython 3.11.6, the interpreter the bot runs
under).  Two validation steps are modelled as always succeeding because
they need the Unicode database resp. the `ipaddress` module, and no claim
touches the URLs they reject: `_checknetloc` (raises only for non-ASCII
netlocs whose NFKC normalization introduces separators) and
`_check_bracketed_host` (validates netlocs containing `[...]`; no mirror
host and no claimed input has brackets — the model over-approximates by
accepting such URLs where CPython may raise). -/

/-- SplitRes is `urllib.parse.SplitResult`: scheme, netloc, path (still
carrying any params), query, fragment. -/
structure SplitRes where
  scheme : Chars
  netloc : Chars
  rest : Chars
  query : Chars
  fragment : Chars
deriving DecidableEq

/-- ParseRes is `urllib.parse.ParseResult`: the six URL components. -/
structure ParseRes where
  scheme : Chars
  netloc : Chars
  path : Chars
  params : Chars
  query : Chars
  fragment : Chars
deriving DecidableEq

/-- uses_params is `urllib.parse.uses_params` (schemes whose path can carry
`;params`). -/
def uses_params : List Chars :=
  [cs "", cs "ftp", cs "hdl", cs "prospero", cs "http", cs "imap",
   cs "https", cs "shttp", cs "rtsp", cs "rtspu", cs "sip", cs "sips",
   cs "mms", cs "sftp", cs "tel"]

/-- uses_netloc is `urllib.parse.uses_netloc` (schemes serialized with a
`//netloc` part even when the netloc is empty). -/
def uses_netloc : List Chars :=
  [cs "", cs "ftp", cs "http", cs "gopher", cs "nntp", cs "telnet",
   cs "imap", cs "wais", cs "file", cs "mms", cs "https", cs "shttp",
   cs "snews", cs "prospero", cs "rtsp", cs "rtspu", cs "rsync",
   cs "svn", cs "svn+ssh", cs "sftp", cs "nfs", cs "git", cs "git+ssh",
   cs "ws", cs "wss"]

/-- netDelim is true for the three netloc delimiters `/?#` scanned by
`_splitnetloc`. -/
def netDelim (c : Char) : Bool := c = '/' || c = '?' || c = '#'

/-- splitScheme transcribes the scheme-recognition step of `urlsplit`:
`i = url.find(':')`; when `i > 0`, `url[0]` is an ASCII letter and every
char of `url[:i]` is a scheme char, the scheme is `url[:i].lower()` and the
rest is `url[i+1:]`; otherwise the scheme is empty and the URL unchanged. -/
def splitScheme (l : Chars) : Chars × Chars :=
  let pre := l.takeWhile (· ≠ ':')
  let post := l.dropWhile (· ≠ ':')
  if post = [] then ([], l)
  else if pre ≠ [] ∧ headIsAlpha pre ∧ pre.all schemeChar
  then (pre.map Char.toLower, post.tail)
  else ([], l)

/-- splitFragQuery transcribes the fragment and query splits of `urlsplit`
(in that order: the fragment is everything after the first `#`, the query
is then everything after the first `?` of what precedes it). -/
def splitFragQuery (l : Chars) : Chars × Chars × Chars :=
  let pf := splitOnceL '#' l
  let pq := splitOnceL '?' pf.1
  (pq.1, pq.2, pf.2)

/-- urlsplitL transcribes `urllib.parse.urlsplit(url)` (default
arguments): left-strip C0 controls and space, remove tab/CR/LF, then
split scheme, netloc, fragment, and query.  `none` models the
`ValueError("Invalid IPv6 URL")` raise on unbalanced brackets in the
netloc. -/
def urlsplitL (u : Chars) : Option SplitRes :=
  let url0 := (u.dropWhile c0sp).filter (fun c => !tabCrLf c)
  let su := splitScheme url0
  if su.2.take 2 = ['/', '/'] then
    let r := su.2.drop 2
    let netloc := r.takeWhile (fun c => !netDelim c)
    let rest0 := r.dropWhile (fun c => !netDelim c)
    if ('[' ∈ netloc ∧ ']' ∉ netloc) ∨ (']' ∈ netloc ∧ '[' ∉ netloc) then none
    else
      let pqf := splitFragQuery rest0
      some ⟨su.1, netloc, pqf.1, pqf.2.1, pqf.2.2⟩
  else
    let pqf := splitFragQuery su.2
    some ⟨su.1, [], pqf.1, pqf.2.1, pqf.2.2⟩

/-- splitparamsL transcribes `urllib.parse._splitparams(url)`.  When the
path contains a slash, the split point is the first `;` at or after the
last `/` (no split if there is none); otherwise it is the first `;`.  The
no-slash-no-semicolon corner reproduces CPython's `i = -1` slicing
(`url[:-1], url[0:]`); `urlparse` only calls this when a `;` is present,
so that corner is unreachable from `urlparseL`. -/
def splitparamsL (url : Chars) : Chars × Chars :=
  if '/' ∈ url then
    let a := (url.reverse.dropWhile (· ≠ '/')).reverse
    let b := (url.reverse.takeWhile (· ≠ '/')).reverse
    if ';' ∈ b then (a ++ b.takeWhile (· ≠ ';'), (b.dropWhile (· ≠ ';')).tail)
    else (url, [])
  else
    if ';' ∈ url then (url.takeWhile (· ≠ ';'), (url.dropWhile (· ≠ ';')).tail)
    else (url.dropLast, url)

/-- parseParamsStep is the params step of `urlparse`: split params off the
path only when the scheme is in `uses_params` and the path contains a `;`. -/
def parseParamsStep (scheme rest : Chars) : Chars × Chars :=
  if scheme ∈ uses_params ∧ ';' ∈ rest then splitparamsL rest else (rest, [])

/-- urlparseL transcribes `urllib.parse.urlparse(url)` (default arguments):
`urlsplit` plus the params split. -/
def urlparseL (u : Chars) : Option ParseRes :=
  match urlsplitL u with
  | none => none
  | some s =>
    let pp := parseParamsStep s.scheme s.rest
    some ⟨s.scheme, s.netloc, pp.1, pp.2, s.query, s.fragment⟩

/-- hostinfoHost transcribes the hostname component of
`_NetlocResultMixinStr._hostinfo`: take the part of the netloc after the
last `@`; inside `[...]` brackets the host is the part before `]`,
otherwise the part before the first `:`. -/
def hostinfoHost (netloc : Chars) : Chars :=
  let hostinfo := afterLastAt '@' netloc
  let br := partitionAt '[' hostinfo
  if br.2.1 then (partitionAt ']' br.2.2).1
  else (partitionAt ':' hostinfo).1

/-- hostinfoPort transcribes the port component of `_hostinfo` (the raw
port substring of the netloc; `None` when empty or absent). -/
def hostinfoPort (netloc : Chars) : Option Chars :=
  let hostinfo := afterLastAt '@' netloc
  let br := partitionAt '[' hostinfo
  let port :=
    if br.2.1 then (partitionAt ':' (partitionAt ']' br.2.2).2.2).2.2
    else (partitionAt ':' hostinfo).2.2
  if port = [] then none else some port

/-- pyHostname transcribes the `hostname` property: `None` when the host
part is empty, else the host lowercased  — except that an IPv6 zone suffix
(after `%`) is kept un-lowercased. -/
def pyHostname (netloc : Chars) : Option Chars :=
  let h := hostinfoHost netloc
  if h = [] then none
  else
    let z := partitionAt '%' h
    some (z.1.map Char.toLower ++ (if z.2.1 then '%' :: z.2.2 else []))

/-- urlunsplitL transcribes `urllib.parse.urlunsplit`. -/
def urlunsplitL (scheme netloc url query fragment : Chars) : Chars :=
  let url1 :=
    if netloc ≠ [] ∨ (scheme ≠ [] ∧ scheme ∈ uses_netloc ∧ url.take 2 ≠ ['/', '/']) then
      let u2 := if url ≠ [] ∧ url.take 1 ≠ ['/'] then '/' :: url else url
      '/' :: '/' :: (netloc ++ u2)
    else url
  let url2 := if scheme ≠ [] then scheme ++ ':' :: url1 else url1
  let url3 := if query ≠ [] then url2 ++ '?' :: query else url2
  if fragment ≠ [] then url3 ++ '#' :: fragment else url3

/-- rejoinParams re-attaches params to the path with `;` (the
`if params: url = "%s;%s" % (url, params)` step of `urlunparse`). -/
def rejoinParams (path params : Chars) : Chars :=
  if params ≠ [] then path ++ ';' :: params else path

/-- urlunparseL transcribes `urllib.parse.urlunparse`: re-attach params to
the path, then `urlunsplit`. -/
def urlunparseL (p : ParseRes) : Chars :=
  urlunsplitL p.scheme p.netloc (rejoinParams p.path p.params) p.query p.fragment

/-! Rewriting configuration of `bot.py`. -/

/-- DEFAULT_MIRRORS is the bot's origin-host-to-mirror-host dict, in source
order (Python dicts preserve insertion order; keys are unique, so
`dict.get` is first-match lookup). -/
def DEFAULT_MIRRORS : List (Chars × Chars) :=
  [(cs "twitter.com", cs "fixupx.com"),
   (cs "x.com", cs "fixupx.com"),
   (cs "instagram.com", cs "kkinstagram.com"),
   (cs "reddit.com", cs "rxddit.com"),
   (cs "tiktok.com", cs "vxtiktok.com"),
   (cs "bsky.app", cs "bskx.app")]

/-- SKIP_HOSTS is the bot's set of hosts that are already mirrors. -/
def SKIP_HOSTS : List Chars :=
  [cs "fxtwitter.com", cs "fixupx.com",
   cs "kkinstagram.com", cs "uuinstagram.com", cs "instagramez.com",
   cs "rxddit.com", cs "vxreddit.com",
   cs "vxtiktok.com",
   cs "bskx.app", cs "bskyx.app"]

/-- pyDictGet is Python's `dict.get(k)` over the insertion-ordered
key-value list (first matching key wins; keys here are unique). -/
def pyDictGet (k : Chars) : List (Chars × Chars) → Option Chars
  | [] => none
  | (a, b) :: t => if k = a then some b else pyDictGet k t

/-- storyPfx is the bot's `STORY_PREFIX` constant, the path marker of
ephemeral Instagram stories. -/
def storyPfx : Chars := cs "/stories/"

/-- igPostPfxs is the bot's `SUPPORTED_IG_POST_PREFIXES` tuple: the
Instagram canonical post path markers that are mirrored. -/
def igPostPfxs : List Chars := [cs "/reel/", cs "/p/", cs "/tv/"]

/-- startsWithAny models `str.startswith(tuple)`. -/
def startsWithAny (ps : List Chars) (l : Chars) : Bool :=
  ps.any (fun p => p.isPrefixOf l)

/-- pickSource transcribes `_pick_source(host)`: lowercase the host, then
classify by case-insensitive suffix matching against the five platform apex
domains, in source order. -/
def pickSource (host : Chars) : Option Chars :=
  let h := host.map Char.toLower
  if (cs "twitter.com").isSuffixOf h || (cs "x.com").isSuffixOf h then some (cs "x.com")
  else if (cs "instagram.com").isSuffixOf h then some (cs "instagram.com")
  else if (cs "reddit.com").isSuffixOf h then some (cs "reddit.com")
  else if (cs "tiktok.com").isSuffixOf h then some (cs "tiktok.com")
  else if (cs "bsky.app").isSuffixOf h then some (cs "bsky.app")
  else none

/-- resolveInstagramShare transcribes `_resolve_instagram_share(url)`, with
the two network requests' outcomes passed explicitly: `headResult` (resp.
`getResult`) is `some finalUrl` when the HEAD (resp. GET) request returns a
response whose final URL (after any redirects) is `finalUrl`, and `none`
when the request raises (timeout, connection error, protocol error).  The
source returns the HEAD response's URL when HEAD does not raise; only a
raise falls through to the GET attempt, whose raise yields `None`. -/
def resolveInstagramShare (url : Chars) (headResult getResult : Option Chars) : Option Chars :=
  match headResult with
  | some u => some u
  | none =>
    match getResult with
    | some u => some u
    | none => none

/-- igMirrorStep is the tail of `_rewrite_instagram` after share-link
resolution: `p` is the parse of the canonical URL, `canonical` the
canonical URL itself.  Stories produce no mirror; supported post paths are
mirrored by swapping the netloc for the Instagram mirror host; anything
else returns just the canonical. -/
def igMirrorStep (p : ParseRes) (canonical : Chars) : Option Chars × Option Chars :=
  if storyPfx.isPrefixOf p.path then (none, some canonical)
  else if startsWithAny igPostPfxs p.path then
    match pyDictGet (cs "instagram.com") DEFAULT_MIRRORS with
    | none => (none, some canonical)
    | some mirror =>
      if mirror = [] then (none, some canonical)
      else (some (urlunparseL { p with netloc := mirror }), some canonical)
  else (none, some canonical)

/-- rewriteInstagram transcribes `_rewrite_instagram(url)`.  The `resolve`
argument abstracts `_resolve_instagram_share` (its value for a given URL is
the network's behaviour; the function itself never raises).  The outer
`none` models an exception escaping to `_rewrite_one`'s handler (only
`urlparse` can raise here).  Share paths are resolved first; a falsy
resolution result aborts with `(None, None)`. -/
def rewriteInstagram (resolve : Chars → Option Chars) (url : Chars) :
    Option (Option Chars × Option Chars) :=
  match urlparseL url with
  | none => none
  | some p =>
    if (cs "/share/").isPrefixOf p.path then
      match resolve url with
      | none => some (none, none)
      | some final =>
        if final = [] then some (none, none)
        else
          match urlparseL final with
          | none => none
          | some p2 => some (igMirrorStep p2 final)
    else some (igMirrorStep p url)

/-- hostOf is the bot's `host = (p.hostname or "").lower()`. -/
def hostOf (p : ParseRes) : Chars := ((pyHostname p.netloc).getD []).map Char.toLower

/-- rewriteOne transcribes `_rewrite_one(url)`: skip empty and
already-mirrored hosts; Instagram hosts go through `_rewrite_instagram`;
other recognized hosts get their netloc swapped for the mirror host, the
result being suppressed if identical to the input.  Any exception
(`urlparse` raising, here) is caught and becomes `(None, None)`. -/
def rewriteOne (resolve : Chars → Option Chars) (url : Chars) :
    Option Chars × Option Chars :=
  match urlparseL url with
  | none => (none, none)
  | some p =>
    let host := hostOf p
    if host = [] ∨ host ∈ SKIP_HOSTS then (none, none)
    else if (cs "instagram.com").isSuffixOf host then
      match rewriteInstagram resolve url with
      | none => (none, none)
      | some r => r
    else
      match pickSource host with
      | none => (none, none)
      | some src =>
        match pyDictGet src DEFAULT_MIRRORS with
        | none => (none, none)
        | some mirror =>
          if mirror = [] then (none, none)
          else
            let newUrl := urlunparseL { p with netloc := mirror }
            (if newUrl ≠ url then some newUrl else none, none)

/-- rewriteLoop is the rewrite phase of `on_message`: walk the found links
in order, skip duplicates via the `seen` set, rewrite each, and keep
`(link, mirror, canonical)` triples for links whose mirror is truthy. -/
def rewriteLoop (resolve : Chars → Option Chars) (seen : List Chars) :
    List Chars → List (Chars × Chars × Option Chars)
  | [] => []
  | link :: rest =>
    if link ∈ seen then rewriteLoop resolve seen rest
    else
      match rewriteOne resolve link with
      | (some mirror, canonical) =>
        if mirror ≠ [] then (link, mirror, canonical) :: rewriteLoop resolve (link :: seen) rest
        else rewriteLoop resolve (link :: seen) rest
      | (none, _) => rewriteLoop resolve (link :: seen) rest

/-- rewritePhase runs `rewriteLoop` with an initially empty seen-set, as
`on_message` does. -/
def rewritePhase (resolve : Chars → Option Chars) (links : List Chars) :
    List (Chars × Chars × Option Chars) :=
  rewriteLoop resolve [] links

/-! Text helpers. -/

/-- pyStripWs is Python's `str.strip()` (ASCII whitespace; see `pyWs`). -/
def pyStripWs (l : Chars) : Chars :=
  ((l.dropWhile pyWs).reverse.dropWhile pyWs).reverse

/-- collapseWsAux replaces each maximal whitespace run with a single space,
as `re.sub(r"\s+", " ", s)` does; the flag records whether the scan is
inside a run whose space has already been emitted. -/
def collapseWsAux : Bool → Chars → Chars
  | _, [] => []
  | inRun, c :: r =>
    if pyWs c then
      if inRun then collapseWsAux true r else ' ' :: collapseWsAux true r
    else c :: collapseWsAux false r

/-- compactWs transcribes `_compact_ws(s)`:
`re.sub(r"\s+", " ", s or "").strip()` (for a string argument, `s or ""`
is the identity: it only replaces the empty string by itself). -/
def compactWs (l : Chars) : Chars := pyStripWs (collapseWsAux false l)

/-- truncate transcribes `_truncate(s, max_len)` (the source's only call
site uses the default `max_len = 600`; `s = s or ""` is the identity for
string arguments): strings within the budget pass through, longer ones are
cut to `max_len - 1` chars plus the one-char ellipsis. -/
def truncate (s : Chars) (maxLen : Nat) : Chars :=
  if s.length ≤ maxLen then s else s.take (maxLen - 1) ++ ['…']

/-! Metadata extraction (`_parse_ig_from_og`, `_extract_og_twitter_meta`).

HTML is represented post-parse: an `IgDoc` carries the `meta` tags (with
their `property`/`name`/`content` attributes) and, for each
`application/ld+json` script, the result of `json.loads` on its text —
`none` when the JSON is malformed (the `json.loads` raise that the source
skips), `some v` otherwise.  Python values inside the JSON are modelled by
`Option JVal`, where `none` is Python `None` (JSON `null` parses to it). -/

/-- JVal models non-None Python values produced by `json.loads` (JSON
numbers are modelled as integers; no claim involves fractional numbers). -/
inductive JVal where
  | jbool (b : Bool)
  | jnum (n : Int)
  | jstr (s : Chars)
  | jarr (xs : List (Option JVal))
  | jobj (fields : List (Chars × Option JVal))

/-- pyTruthy is Python truthiness on our value model. -/
def pyTruthy : Option JVal → Bool
  | none => false
  | some (.jbool b) => b
  | some (.jnum n) => n ≠ 0
  | some (.jstr s) => s ≠ []
  | some (.jarr xs) => !xs.isEmpty
  | some (.jobj fs) => !fs.isEmpty

/-- pyOr is Python's `x or y` (first operand if truthy, else second). -/
def pyOr (x y : Option JVal) : Option JVal := if pyTruthy x then x else y

/-- jget is `dict.get(k)` on a parsed JSON object (keys are unique in a
dict produced by `json.loads`, so first-match lookup suffices); a missing
key and a `null` value both come out as `none`, i.e. Python `None`. -/
def jget : List (Chars × Option JVal) → Chars → Option JVal
  | [], _ => none
  | (a, v) :: t, k => if a = k then v else jget t k

/-- ldAuthorStep is the author-filling body of the ld+json loop: run only
while the author is falsy; a dict-valued `author` field yields
`name or alternateName`, a nonempty list whose first element is a dict
yields that element's `name`, anything else leaves the author unchanged. -/
def ldAuthorStep (author : Option JVal) (d : List (Chars × Option JVal)) : Option JVal :=
  if pyTruthy author then author
  else
    match jget d (cs "author") with
    | some (.jobj a) => pyOr (jget a (cs "name")) (jget a (cs "alternateName"))
    | some (.jarr []) => author
    | some (.jarr (x :: _)) =>
      match x with
      | some (.jobj a0) => jget a0 (cs "name")
      | _ => author
    | _ => author

/-- ldCaptionStep is the caption-filling body of the ld+json loop: run only
while the caption is falsy; `caption or description or articleBody`. -/
def ldCaptionStep (caption : Option JVal) (d : List (Chars × Option JVal)) : Option JVal :=
  if pyTruthy caption then caption
  else pyOr (pyOr (jget d (cs "caption")) (jget d (cs "description"))) (jget d (cs "articleBody"))

/-- ldItemStep processes one item of a script's JSON payload: non-dict
items are skipped (`continue`), dicts update author then caption. -/
def ldItemStep (st : Option JVal × Option JVal) (item : Option JVal) : Option JVal × Option JVal :=
  match item with
  | some (.jobj d) => (ldAuthorStep st.1 d, ldCaptionStep st.2 d)
  | _ => st

/-- ldScriptStep processes one ld+json script: a `json.loads` failure skips
the script; a list payload is iterated element-wise, anything else is
wrapped as a single item. -/
def ldScriptStep (st : Option JVal × Option JVal) (script : Option (Option JVal)) :
    Option JVal × Option JVal :=
  match script with
  | none => st
  | some data =>
    let items : List (Option JVal) :=
      match data with
      | some (.jarr xs) => xs
      | other => [other]
    items.foldl ldItemStep st

/-- ldScan folds the ld+json loop over all scripts. -/
def ldScan (st : Option JVal × Option JVal) (scripts : List (Option (Option JVal))) :
    Option JVal × Option JVal :=
  scripts.foldl ldScriptStep st

/-- MetaTag is one `<meta>` tag as BeautifulSoup reports it: its optional
`property`, `name`, and `content` attribute values. -/
structure MetaTag where
  propAttr : Option Chars
  nameAttr : Option Chars
  content : Option Chars

/-- IgDoc is the post-parse view of a fetched HTML document: meta tags in
document order, and the parse results of the `application/ld+json`
scripts in document order. -/
structure IgDoc where
  metas : List MetaTag
  scripts : List (Option (Option JVal))

/-- attrOf selects the attribute family the source queries:
`attrs={"name": v}` when `byName`, else `attrs={"property": v}`. -/
def attrOf (byName : Bool) (t : MetaTag) : Option Chars :=
  if byName then t.nameAttr else t.propAttr

/-- metaContent models the source's `meta()` helper and its twitter-tag
fallback queries: find the first meta tag whose selected attribute equals
`v` and return its `content` when truthy (`tag.get("content") if tag and
tag.get("content") else None`). -/
def metaContent (doc : IgDoc) (v : Chars) (byName : Bool) : Option Chars :=
  match doc.metas.find? (fun t => attrOf byName t = some v) with
  | none => none
  | some t =>
    match t.content with
    | none => none
    | some c => if c = [] then none else some c

/-- ogTitleOf is the title lookup of `_extract_og_twitter_meta`:
`og:title` by property, falling back to `twitter:title` by name. -/
def ogTitleOf (doc : IgDoc) : Option Chars :=
  match metaContent doc (cs "og:title") false with
  | some t => some t
  | none => metaContent doc (cs "twitter:title") true

/-- ogDescOf is the description lookup: `og:description` by property,
falling back to `twitter:description` by name. -/
def ogDescOf (doc : IgDoc) : Option Chars :=
  match metaContent doc (cs "og:description") false with
  | some d => some d
  | none => metaContent doc (cs "twitter:description") true

/-! The title regex.  The source matches
`r'^(.+?)\s+on Instagram:?\s*["“](.*?)["”]?\s*$'` against the stripped
title.  The matcher below transcribes that pattern's backtracking
behaviour: the lazy author group grows one (non-newline) char at a time;
after it, one-or-more whitespace and the literal are forced (the literal
starts with a non-whitespace char, so the whitespace run is exactly the
maximal one); the optional colon and the whitespace before the opening
quote are likewise forced; the lazy caption group stops at the first
position where the rest of the input is an optional closing quote followed
by whitespace only. -/

/-- litOnInstagram is the literal part of the title pattern. -/
def litOnInstagram : Chars := cs "on Instagram"

/-- igQuoteOpen matches the pattern's opening-quote class. -/
def igQuoteOpen (c : Char) : Bool := c = '"' || c = '“'

/-- igQuoteClose matches the pattern's closing-quote class. -/
def igQuoteClose (c : Char) : Bool := c = '"' || c = '”'

/-- igTailEnd decides whether `l` matches the pattern tail
`["”]?\s*$` (quote chars are not whitespace, so the two alternatives are
exclusive in the way shown). -/
def igTailEnd (l : Chars) : Bool :=
  match l with
  | [] => true
  | c :: r => (igQuoteClose c && r.all pyWs) || (c :: r).all pyWs

/-- igGroup2 matches the lazy caption group followed by the pattern tail:
the shortest run of non-newline chars after which `igTailEnd` holds. -/
def igGroup2 : Chars → Option Chars
  | [] => if igTailEnd [] then some [] else none
  | c :: r =>
    if igTailEnd (c :: r) then some []
    else if c = '\n' then none
    else (igGroup2 r).map (fun g => c :: g)

/-- igTailStart matches `:?\s*["“]` and then the caption group. -/
def igTailStart (l : Chars) : Option Chars :=
  let l1 := match l with
    | ':' :: r => r
    | other => other
  match l1.dropWhile pyWs with
  | c :: r => if igQuoteOpen c then igGroup2 r else none
  | [] => none

/-- igAttempt matches `\s+on Instagram` and then the pattern tail at one
candidate split point. -/
def igAttempt (l : Chars) : Option Chars :=
  if l.takeWhile pyWs = [] then none
  else
    let r := l.dropWhile pyWs
    if litOnInstagram.isPrefixOf r then igTailStart (r.drop litOnInstagram.length)
    else none

/-- igScan tries split points left to right (the lazy author group prefers
the shortest match); `acc` is the reversed author candidate so far. -/
def igScan (acc : Chars) : Chars → Option (Chars × Chars)
  | [] => none
  | c :: r =>
    if c = '\n' then none
    else
      match igAttempt r with
      | some g2 => some ((c :: acc).reverse, g2)
      | none => igScan (c :: acc) r

/-- igTitleMatch runs the title pattern against a (pre-stripped) title,
returning the author and caption groups on a match. -/
def igTitleMatch (s : Chars) : Option (Chars × Chars) := igScan [] s

/-- parseIgFromOg transcribes `_parse_ig_from_og(og_title, og_desc)`: a
truthy title is stripped and matched against the pattern, filling author
and caption; a truthy description then overwrites the caption. -/
def parseIgFromOg (ogTitle ogDesc : Option Chars) : Option Chars × Option Chars :=
  let am :=
    match ogTitle with
    | some t =>
      if t ≠ [] then
        match igTitleMatch (pyStripWs t) with
        | some g => (some (compactWs g.1), some (compactWs g.2))
        | none => (none, none)
      else (none, none)
    | none => (none, none)
  let caption :=
    match ogDesc with
    | some d => if d ≠ [] then some (compactWs d) else am.2
    | none => am.2
  (am.1, caption)

/-- finalizeStr models `f(v) if v else None` where `f` begins with
`re.sub` on its argument: a falsy value gives `None`; a truthy string is
transformed; a truthy non-string raises `TypeError` (outer `none`). -/
def finalizeStr (v : Option JVal) (f : Chars → Chars) : Option (Option Chars) :=
  if pyTruthy v then
    match v with
    | some (.jstr s) => some (some (f s))
    | _ => none
  else some none

/-- extractOgTwitterMeta transcribes `_extract_og_twitter_meta(html)` on
the post-parse document view: read title/description, run the title
pattern and description override, fall into the ld+json cascade only when
author and caption are not both truthy, then normalize (and truncate the
caption).  The outer `none` models an uncaught `TypeError` from
normalizing a non-string JSON value. -/
def extractOgTwitterMeta (doc : IgDoc) : Option (Option Chars × Option Chars) :=
  let ac := parseIgFromOg (ogTitleOf doc) (ogDescOf doc)
  let author0 : Option JVal := ac.1.map JVal.jstr
  let caption0 : Option JVal := ac.2.map JVal.jstr
  let st :=
    if !(pyTruthy author0 && pyTruthy caption0) then ldScan (author0, caption0) doc.scripts
    else (author0, caption0)
  match finalizeStr st.1 compactWs with
  | none => none
  | some author =>
    match finalizeStr st.2 (fun s => truncate (compactWs s) 600) with
    | none => none
    | some caption => some (author, caption)

/-! Repost formatting (`_format_repost`). -/

/-- pyTStr is Python truthiness of an optional string. -/
def pyTStr : Option Chars → Bool
  | none => false
  | some s => s ≠ []

/-- linkLine is the f-string
`f"[Original Link](<{orig}>) | [Embed Link]({mirror})"`: the original URL
sits inside angle brackets (suppressing the preview of a masked link's
destination), the mirror URL does not. -/
def linkLine (orig mirror : Chars) : Chars :=
  cs "[Original Link](<" ++ orig ++ cs ">) | [Embed Link](" ++ mirror ++ cs ")"

/-- blockLines renders one `(orig, mirror, ig_author, ig_caption)` block:
optional author and caption lines, then the pairing line. -/
def blockLines : Chars × Chars × Option Chars × Option Chars → List Chars
  | (orig, mirror, igAuthor, igCaption) =>
    (if pyTStr igAuthor || pyTStr igCaption then
      (if pyTStr igAuthor then [cs "**Author:** " ++ igAuthor.getD []] else []) ++
      (if pyTStr igCaption then [cs "**Caption:** " ++ igCaption.getD []] else [])
    else []) ++ [linkLine orig mirror]

/-- formatLines is the `lines` list built by `_format_repost`: the extra
text (the source annotates it `Optional[str]`, but its caller always
passes a — possibly empty — string, which is what we model, since
`"\n".join` would raise on `None`), the attribution line, then each
block's lines. -/
def formatLines (authorMention extraText : Chars)
    (blocks : List (Chars × Chars × Option Chars × Option Chars)) : List Chars :=
  extraText :: (cs "Sent by " ++ authorMention) :: (blocks.map blockLines).flatten

/-- formatRepost transcribes `_format_repost`: the lines joined by
newlines. -/
def formatRepost (authorMention extraText : Chars)
    (blocks : List (Chars × Chars × Option Chars × Option Chars)) : Chars :=
  List.intercalate (cs "\n") (formatLines authorMention extraText blocks)

/-! Invariant predicates used by the round-trip lemmas. -/

/-- NoTab states that a component contains none of the characters that
`urlsplit` removes up front. -/
def NoTab (l : Chars) : Prop := ∀ c ∈ l, tabCrLf c = false

/-- SchemeOK characterizes the scheme component of a parse result: empty,
or all scheme chars, starting with an ASCII letter, already lowercased. -/
def SchemeOK (s : Chars) : Prop :=
  s = [] ∨ (headIsAlpha s = true ∧ s.all schemeChar = true ∧ s.map Char.toLower = s)

/-- MirrorHost collects what the round-trip argument needs of a mirror
host string: nonempty, bracket-free, and free of netloc delimiters and of
the characters `urlsplit` removes. -/
def MirrorHost (M : Chars) : Prop :=
  M ≠ [] ∧ '[' ∉ M ∧ ']' ∉ M ∧ ∀ c ∈ M, netDelim c = false ∧ tabCrLf c = false

/-- ParsedOK collects the invariants `urlparseL` guarantees of its output;
they are exactly what the round-trip lemmas consume. -/
structure ParsedOK (p : ParseRes) : Prop where
  schemeOK : SchemeOK p.scheme
  pathNoHash : '#' ∉ p.path
  pathNoQm : '?' ∉ p.path
  paramsNoHash : '#' ∉ p.params
  paramsNoQm : '?' ∉ p.params
  queryNoHash : '#' ∉ p.query
  pathNT : NoTab p.path
  paramsNT : NoTab p.params
  queryNT : NoTab p.query
  fragNT : NoTab p.fragment
  shape : p.netloc ≠ [] → (p.path = [] ∧ p.params = []) ∨ (∃ t, p.path = '/' :: t)
  paramsRejoin : parseParamsStep p.scheme (rejoinParams p.path p.params) = (p.path, p.params)

/-! Character-level lemmas. -/

theorem charToNat_ofNat_valid (n : Nat) (h : n.isValidChar) : (Char.ofNat n).toNat = n := by
  rw [Char.ofNat, dif_pos h]
  rfl

theorem isUpper_iff (c : Char) : c.isUpper = true ↔ 65 ≤ c.toNat ∧ c.toNat ≤ 90 := by
  simp [Char.isUpper, Bool.and_eq_true, decide_eq_true_iff, UInt32.le_def, BitVec.le_def,
    UInt32.toNat, Char.toNat]

theorem isLower_iff (c : Char) : c.isLower = true ↔ 97 ≤ c.toNat ∧ c.toNat ≤ 122 := by
  simp [Char.isLower, Bool.and_eq_true, decide_eq_true_iff, UInt32.le_def, BitVec.le_def,
    UInt32.toNat, Char.toNat]

theorem isDigit_iff (c : Char) : c.isDigit = true ↔ 48 ≤ c.toNat ∧ c.toNat ≤ 57 := by
  simp [Char.isDigit, Bool.and_eq_true, decide_eq_true_iff, UInt32.le_def, BitVec.le_def,
    UInt32.toNat, Char.toNat]

theorem toNat_toLower (c : Char) :
    (Char.toLower c).toNat = if 65 ≤ c.toNat ∧ c.toNat ≤ 90 then c.toNat + 32 else c.toNat := by
  rw [Char.toLower]
  split
  · next h => exact charToNat_ofNat_valid _ (Or.inl (by omega))
  · rfl

theorem char_eq_of_toNat_eq {a b : Char} (h : a.toNat = b.toNat) : a = b := by
  apply Char.eq_of_val_eq
  exact UInt32.toNat.inj h

theorem toLower_toLower (c : Char) : (Char.toLower c).toLower = Char.toLower c := by
  apply char_eq_of_toNat_eq
  rw [toNat_toLower (Char.toLower c), toNat_toLower c]
  split_ifs <;> omega

theorem isAlpha_toLower (c : Char) (h : c.isAlpha = true) : (Char.toLower c).isAlpha = true := by
  rw [Char.isAlpha, Bool.or_eq_true] at h ⊢
  rw [isUpper_iff, isLower_iff] at h ⊢
  rw [toNat_toLower]
  rcases h with h | h
  · right
    rw [if_pos (by omega)]
    omega
  · right
    rw [if_neg (by omega)]
    omega

theorem toLower_eq_self (c : Char) (h : ¬(65 ≤ c.toNat ∧ c.toNat ≤ 90)) :
    Char.toLower c = c := by
  apply char_eq_of_toNat_eq
  rw [toNat_toLower, if_neg h]

theorem char_eq_iff_toNat {a b : Char} : a = b ↔ a.toNat = b.toNat :=
  ⟨fun h => by rw [h], char_eq_of_toNat_eq⟩

theorem isAlpha_iff (c : Char) :
    c.isAlpha = true ↔ (65 ≤ c.toNat ∧ c.toNat ≤ 90) ∨ (97 ≤ c.toNat ∧ c.toNat ≤ 122) := by
  rw [Char.isAlpha, Bool.or_eq_true, isUpper_iff, isLower_iff]

theorem schemeChar_iff (c : Char) :
    schemeChar c = true ↔
      (65 ≤ c.toNat ∧ c.toNat ≤ 90) ∨ (97 ≤ c.toNat ∧ c.toNat ≤ 122) ∨
      (48 ≤ c.toNat ∧ c.toNat ≤ 57) ∨ c.toNat = 43 ∨ c.toNat = 45 ∨ c.toNat = 46 := by
  have e1 : (c = '+') ↔ c.toNat = 43 := char_eq_iff_toNat
  have e2 : (c = '-') ↔ c.toNat = 45 := char_eq_iff_toNat
  have e3 : (c = '.') ↔ c.toNat = 46 := char_eq_iff_toNat
  rw [schemeChar]
  simp only [Bool.or_eq_true, isAlpha_iff, isDigit_iff, decide_eq_true_iff, e1, e2, e3]
  tauto

theorem tabCrLf_iff (c : Char) :
    tabCrLf c = true ↔ c.toNat = 9 ∨ c.toNat = 13 ∨ c.toNat = 10 := by
  have e1 : (c = '\t') ↔ c.toNat = 9 := char_eq_iff_toNat
  have e2 : (c = '\r') ↔ c.toNat = 13 := char_eq_iff_toNat
  have e3 : (c = '\n') ↔ c.toNat = 10 := char_eq_iff_toNat
  rw [tabCrLf]
  simp only [Bool.or_eq_true, decide_eq_true_iff, e1, e2, e3]
  tauto

theorem c0sp_iff (c : Char) : c0sp c = true ↔ c.toNat ≤ 32 := by
  rw [c0sp]
  simp only [decide_eq_true_iff]

theorem schemeChar_toLower (c : Char) (h : schemeChar c = true) :
    schemeChar (Char.toLower c) = true := by
  rw [schemeChar_iff] at h ⊢
  rw [toNat_toLower]
  split_ifs <;> omega

theorem schemeChar_not_tabCrLf (c : Char) (h : schemeChar c = true) : tabCrLf c = false := by
  rw [schemeChar_iff] at h
  rw [← Bool.not_eq_true, tabCrLf_iff]
  omega

theorem schemeChar_not_c0sp (c : Char) (h : schemeChar c = true) : c0sp c = false := by
  rw [schemeChar_iff] at h
  rw [← Bool.not_eq_true, c0sp_iff]
  omega

theorem isAlpha_not_c0sp (c : Char) (h : c.isAlpha = true) : c0sp c = false := by
  rw [isAlpha_iff] at h
  rw [← Bool.not_eq_true, c0sp_iff]
  omega

theorem map_toLower_idem (l : Chars) : (l.map Char.toLower).map Char.toLower = l.map Char.toLower := by
  induction l with
  | nil => rfl
  | cons c t ih => simp [toLower_toLower, ih]

/-! Claim C2: the mirror table versus the skip set. -/

/-- C2 counterexample: the claim says no mirror host in `DEFAULT_MIRRORS`'
value set is a member of `SKIP_HOSTS`; but the mirror of the SourceKey
`x.com` is `fixupx.com`, which is a member of `SKIP_HOSTS`. -/
theorem C2_disjoint_counterexample :
    pyDictGet (cs "x.com") DEFAULT_MIRRORS = some (cs "fixupx.com") ∧
    cs "fixupx.com" ∈ SKIP_HOSTS := by
  constructor
  · decide
  · decide

/-- C2 amended: every mirror host in `DEFAULT_MIRRORS`' value set IS a
member of `SKIP_HOSTS` (both are module-level constants that nothing
mutates, so this holds for the process lifetime); that containment — the
opposite of the claimed disjointness — is what guarantees that no mirror
host is itself rewritten. -/
theorem C2_mirrors_in_skip (k v : Chars)
    (h : pyDictGet k DEFAULT_MIRRORS = some v) : v ∈ SKIP_HOSTS := by
  simp only [DEFAULT_MIRRORS, pyDictGet] at h
  split_ifs at h <;>
    simp only [Option.some.injEq] at h <;>
    rw [← h] <;>
    decide

/-- C2 witness: the amended theorem applied at the SourceKey `x.com`. -/
theorem C2_mirrors_in_skip_witness :
    pyDictGet (cs "x.com") DEFAULT_MIRRORS = some (cs "fixupx.com") ∧
    cs "fixupx.com" ∈ SKIP_HOSTS :=
  ⟨by decide, C2_mirrors_in_skip (cs "x.com") (cs "fixupx.com") (by decide)⟩

/-! Claim C4: the share-link redirect resolver. -/

/-- C4 counterexample: the claim says that a HEAD attempt failing by "not
redirecting" triggers the GET retry, and that a second failure yields
none.  Take a HEAD request that returns without raising but does not
redirect (its final URL is the request URL itself) while the GET attempt
would raise: the source returns the HEAD response's URL — not none, and
without consulting the GET outcome. -/
theorem C4_nonredirect_counterexample :
    resolveInstagramShare (cs "https://www.instagram.com/share/reel/abc")
        (some (cs "https://www.instagram.com/share/reel/abc")) none ≠ none ∧
    resolveInstagramShare (cs "https://www.instagram.com/share/reel/abc")
        (some (cs "https://www.instagram.com/share/reel/abc")) none =
      some (cs "https://www.instagram.com/share/reel/abc") := by
  constructor
  · intro h
    simp [resolveInstagramShare] at h
  · rfl

/-- C4 amended: the resolver makes the HEAD-style attempt first and
retries with GET exactly when the HEAD attempt raises (timeout, network
error, protocol error); any HEAD response that returns without raising —
redirecting or not — is returned as the result directly; when both
attempts raise the result is none; being a total function into `Option`,
it never propagates an exception to its caller. -/
theorem C4_resolver_retry (url headUrl : Chars) (getResult : Option Chars) :
    resolveInstagramShare url none none = none ∧
    resolveInstagramShare url none getResult = getResult ∧
    resolveInstagramShare url (some headUrl) getResult = some headUrl := by
  refine ⟨rfl, ?_, rfl⟩
  cases getResult <;> rfl

/-! Claim C7: caption truncation. -/

/-- C7: a caption strictly longer than the budget is truncated to exactly
the budget length and ends with the ellipsis char; a caption at or under
the budget is returned unchanged. -/
theorem C7_truncate_spec (s : Chars) :
    (600 < s.length → (truncate s 600).length = 600 ∧
      (truncate s 600).getLast? = some '…') ∧
    (s.length ≤ 600 → truncate s 600 = s) := by
  constructor
  · intro h
    rw [truncate, if_neg (by omega)]
    constructor
    · rw [List.length_append, List.length_take]
      simp
      omega
    · exact List.getLast?_concat _
  · intro h
    rw [truncate, if_pos h]

/-- C7 witness: the theorem applied to a 601-char caption and to a short
caption. -/
theorem C7_truncate_spec_witness :
    ((truncate (List.replicate 601 'x') 600).length = 600 ∧
      (truncate (List.replicate 601 'x') 600).getLast? = some '…') ∧
    truncate (cs "abc") 600 = cs "abc" :=
  ⟨(C7_truncate_spec (List.replicate 601 'x')).1 (by rw [List.length_replicate]; omega),
   (C7_truncate_spec (cs "abc")).2 (by decide)⟩

/-! Claim C9: suffix classification has no domain-label boundary. -/

/-- C9: the host `matrix.com` belongs to no key of the mirror table, but
its characters end in `x.com`, so `_pick_source` classifies it as the
`x.com` SourceKey and `_rewrite_one` rewrites it to that platform's
mirror host. -/
theorem C9_suffix_no_boundary :
    (∀ kv ∈ DEFAULT_MIRRORS, kv.1 ≠ cs "matrix.com") ∧
    pickSource (cs "matrix.com") = some (cs "x.com") ∧
    rewriteOne (fun _ => none) (cs "https://matrix.com/foo") =
      (some (cs "https://fixupx.com/foo"), none) := by
  refine ⟨by decide, by decide, by decide⟩

/-! Claim C10: the skip check does not cover mirror-host subdomains. -/

/-- C10: `www.fixupx.com` is not a member of `SKIP_HOSTS` (the skip check
is exact membership), yet it classifies to the `x.com` SourceKey by
suffix, so the URL is rewritten again to the bare mirror host. -/
theorem C10_subdomain_skip_gap :
    cs "www.fixupx.com" ∉ SKIP_HOSTS ∧
    cs "fixupx.com" ∈ SKIP_HOSTS ∧
    pickSource (cs "www.fixupx.com") = some (cs "x.com") ∧
    rewriteOne (fun _ => none) (cs "https://www.fixupx.com/user/status/1") =
      (some (cs "https://fixupx.com/user/status/1"), none) := by
  refine ⟨by decide, by decide, by decide, by decide⟩

/-! Claim C3: the formatter's link line. -/

/-- C3: for every block the formatter emits the line that pairs the two
links, with the original URL wrapped in angle brackets inside its masked
link (suppressing the preview of that destination) and the mirror URL
emitted without such wrapping. -/
theorem C3_format_link_line (mention extra : Chars)
    (blocks : List (Chars × Chars × Option Chars × Option Chars))
    (orig mirror : Chars) (a c : Option Chars)
    (h : (orig, mirror, a, c) ∈ blocks) :
    linkLine orig mirror ∈ formatLines mention extra blocks ∧
    linkLine orig mirror =
      cs "[Original Link](<" ++ orig ++ cs ">) | [Embed Link](" ++ mirror ++ cs ")" := by
  constructor
  · rw [formatLines]
    refine List.mem_cons_of_mem _ (List.mem_cons_of_mem _ ?_)
    rw [List.mem_flatten]
    refine ⟨blockLines (orig, mirror, a, c), List.mem_map_of_mem _ h, ?_⟩
    rw [blockLines]
    exact List.mem_append_right _ (List.mem_singleton.mpr rfl)
  · rfl

/-- C3 witness: the theorem applied to a concrete one-block list. -/
theorem C3_format_link_line_witness :
    ((cs "https://x.com/a", cs "https://fixupx.com/a",
        (none : Option Chars), (none : Option Chars)) ∈
      [(cs "https://x.com/a", cs "https://fixupx.com/a",
        (none : Option Chars), (none : Option Chars))]) ∧
    linkLine (cs "https://x.com/a") (cs "https://fixupx.com/a") ∈
      formatLines (cs "@user") (cs "check this")
        [(cs "https://x.com/a", cs "https://fixupx.com/a", none, none)] :=
  ⟨List.mem_singleton.mpr rfl,
   (C3_format_link_line (cs "@user") (cs "check this") _ _ _ none none
      (List.mem_singleton.mpr rfl)).1⟩

/-! List-splitting lemmas. -/

theorem takeWhile_append_all {p : Char → Bool} {a : Chars} (b : Chars)
    (ha : ∀ c ∈ a, p c = true) : (a ++ b).takeWhile p = a ++ b.takeWhile p := by
  induction a with
  | nil => simp
  | cons x t ih =>
    have hx : p x = true := ha x (List.mem_cons_self x t)
    simp only [List.cons_append, List.takeWhile_cons_of_pos hx]
    rw [ih (fun c hc => ha c (List.mem_cons_of_mem _ hc))]

theorem dropWhile_append_all {p : Char → Bool} {a : Chars} (b : Chars)
    (ha : ∀ c ∈ a, p c = true) : (a ++ b).dropWhile p = b.dropWhile p := by
  induction a with
  | nil => simp
  | cons x t ih =>
    have hx : p x = true := ha x (List.mem_cons_self x t)
    simp only [List.cons_append, List.dropWhile_cons_of_pos hx]
    exact ih (fun c hc => ha c (List.mem_cons_of_mem _ hc))

theorem takeWhile_all {p : Char → Bool} {l : Chars}
    (h : ∀ c ∈ l, p c = true) : l.takeWhile p = l := by
  have := takeWhile_append_all (p := p) (a := l) [] h
  simpa using this

theorem dropWhile_all {p : Char → Bool} {l : Chars}
    (h : ∀ c ∈ l, p c = true) : l.dropWhile p = [] := by
  have := dropWhile_append_all (p := p) (a := l) [] h
  simpa using this

theorem ne_decide_all {sep : Char} {a : Chars} (ha : sep ∉ a) :
    ∀ c ∈ a, (decide ¬(c = sep)) = true :=
  fun c hc => decide_eq_true (fun h => ha (h ▸ hc))

theorem splitOnceL_app {sep : Char} {a : Chars} (b : Chars) (ha : sep ∉ a) :
    splitOnceL sep (a ++ sep :: b) = (a, b) := by
  rw [splitOnceL]
  rw [takeWhile_append_all _ (ne_decide_all ha), dropWhile_append_all _ (ne_decide_all ha)]
  rw [List.takeWhile_cons_of_neg (by simp), List.dropWhile_cons_of_neg (by simp)]
  simp

theorem splitOnceL_no_sep {sep : Char} {a : Chars} (ha : sep ∉ a) :
    splitOnceL sep a = (a, []) := by
  rw [splitOnceL]
  rw [takeWhile_all (ne_decide_all ha), dropWhile_all (ne_decide_all ha)]
  rfl

theorem mem_of_dropWhile_ne_nil {p : Char → Bool} {l : Chars} {c : Char} {t : Chars}
    (h : l.dropWhile p = c :: t) : p c = false := by
  induction l with
  | nil => simp at h
  | cons x r ih =>
    rw [List.dropWhile_cons] at h
    split at h
    · exact ih h
    · next hx =>
      cases h
      exact Bool.not_eq_true _ |>.mp hx

theorem pred_of_mem_takeWhile {p : Char → Bool} {l : Chars} {c : Char}
    (h : c ∈ l.takeWhile p) : p c = true := by
  induction l with
  | nil => simp at h
  | cons x t ih =>
    rw [List.takeWhile_cons] at h
    split at h
    · next hx =>
      rcases List.mem_cons.mp h with rfl | h2
      · exact hx
      · exact ih h2
    · simp at h

theorem splitOnceL_sub1 (sep : Char) (l : Chars) : (splitOnceL sep l).1 ⊆ l :=
  List.takeWhile_subset _

theorem splitOnceL_sub2 (sep : Char) (l : Chars) : (splitOnceL sep l).2 ⊆ l :=
  fun c hc => (List.dropWhile_subset _) (List.mem_of_mem_tail hc)

theorem splitFragQuery_sub1 (l : Chars) : (splitFragQuery l).1 ⊆ l :=
  fun c hc => splitOnceL_sub1 '#' l (splitOnceL_sub1 '?' _ hc)

theorem splitFragQuery_sub2 (l : Chars) : (splitFragQuery l).2.1 ⊆ l :=
  fun c hc => splitOnceL_sub1 '#' l (splitOnceL_sub2 '?' _ hc)

theorem splitFragQuery_sub3 (l : Chars) : (splitFragQuery l).2.2 ⊆ l :=
  fun c hc => splitOnceL_sub2 '#' l hc

theorem splitFragQuery_noHash1 (l : Chars) : '#' ∉ (splitFragQuery l).1 := by
  intro h
  have h2 : '#' ∈ (splitOnceL '#' l).1 := splitOnceL_sub1 '?' _ h
  have := pred_of_mem_takeWhile h2
  simp at this

theorem splitFragQuery_noQm1 (l : Chars) : '?' ∉ (splitFragQuery l).1 := by
  intro h
  have := pred_of_mem_takeWhile h
  simp at this

theorem splitFragQuery_noHash2 (l : Chars) : '#' ∉ (splitFragQuery l).2.1 := by
  intro h
  have h2 : '#' ∈ (splitOnceL '#' l).1 := splitOnceL_sub2 '?' _ h
  have := pred_of_mem_takeWhile h2
  simp at this

theorem splitScheme_schemeOK (l : Chars) : SchemeOK (splitScheme l).1 := by
  rw [splitScheme]
  split
  · exact Or.inl rfl
  split
  · next hcond =>
    obtain ⟨hne, hh, hall⟩ := hcond
    right
    dsimp only
    refine ⟨?_, ?_, map_toLower_idem _⟩
    · cases hp : l.takeWhile (· ≠ ':') with
      | nil => exact absurd hp hne
      | cons c t =>
        rw [hp] at hh
        rw [List.map_cons]
        simp only [headIsAlpha] at hh ⊢
        exact isAlpha_toLower c hh
    · rw [List.all_map]
      rw [List.all_eq_true] at hall ⊢
      exact fun c hc => schemeChar_toLower _ (hall c hc)
  · exact Or.inl rfl

theorem splitScheme_sub2 (l : Chars) : (splitScheme l).2 ⊆ l := by
  rw [splitScheme]
  split
  · exact fun c hc => hc
  split
  · exact fun c hc => (List.dropWhile_subset _) (List.mem_of_mem_tail hc)
  · exact fun c hc => hc

theorem dropWhile_ne_nil_of_mem {sep : Char} {l : Chars} (h : sep ∈ l) :
    l.dropWhile (· ≠ sep) ≠ [] := by
  intro hnil
  have hsplit := List.takeWhile_append_dropWhile (p := fun c => decide ¬(c = sep)) (l := l)
  rw [hnil, List.append_nil] at hsplit
  have := pred_of_mem_takeWhile (l := l) (hsplit.symm ▸ h)
  simp at this

theorem lastSlash_decomp {url : Chars} (h : '/' ∈ url) :
    ∃ A B : Chars, url = A ++ '/' :: B ∧ '/' ∉ B ∧
      (url.reverse.dropWhile (· ≠ '/')).reverse = A ++ ['/'] ∧
      (url.reverse.takeWhile (· ≠ '/')).reverse = B := by
  have hrev : '/' ∈ url.reverse := List.mem_reverse.mpr h
  have hne : url.reverse.dropWhile (· ≠ '/') ≠ [] := dropWhile_ne_nil_of_mem hrev
  obtain ⟨c, w, hd⟩ : ∃ c w, url.reverse.dropWhile (· ≠ '/') = c :: w := by
    cases hdw : url.reverse.dropWhile (· ≠ '/') with
    | nil => exact absurd hdw hne
    | cons c w => exact ⟨c, w, rfl⟩
  have hc : c = '/' := by
    have := mem_of_dropWhile_ne_nil hd
    simpa using this
  subst hc
  have hsplit := List.takeWhile_append_dropWhile (p := fun c => decide ¬(c = '/')) (l := url.reverse)
  refine ⟨w.reverse, (url.reverse.takeWhile (· ≠ '/')).reverse, ?_, ?_, ?_, rfl⟩
  · calc url = url.reverse.reverse := (List.reverse_reverse url).symm
    _ = (url.reverse.takeWhile (· ≠ '/') ++ url.reverse.dropWhile (· ≠ '/')).reverse := by
        rw [hsplit]
    _ = (url.reverse.dropWhile (· ≠ '/')).reverse ++ (url.reverse.takeWhile (· ≠ '/')).reverse := by
        rw [List.reverse_append]
    _ = w.reverse ++ '/' :: (url.reverse.takeWhile (· ≠ '/')).reverse := by
        rw [hd, List.reverse_cons, List.append_assoc]
        rfl
  · intro hB
    exact absurd (pred_of_mem_takeWhile (List.mem_reverse.mp hB)) (by simp)
  · rw [hd, List.reverse_cons]

theorem splitparamsL_slash_semi {url A B : Chars} (h : '/' ∈ url)
    (ha : (url.reverse.dropWhile (· ≠ '/')).reverse = A ++ ['/'])
    (hb : (url.reverse.takeWhile (· ≠ '/')).reverse = B)
    (hsB : ';' ∈ B) :
    splitparamsL url = ((A ++ ['/']) ++ B.takeWhile (· ≠ ';'), (B.dropWhile (· ≠ ';')).tail) := by
  simp only [splitparamsL, ha, hb]
  rw [if_pos h, if_pos hsB]

theorem splitparamsL_slash_nosemi {url B : Chars} (h : '/' ∈ url)
    (hb : (url.reverse.takeWhile (· ≠ '/')).reverse = B)
    (hsB : ';' ∉ B) :
    splitparamsL url = (url, []) := by
  simp only [splitparamsL, hb]
  rw [if_pos h, if_neg hsB]

theorem splitparamsL_noslash_semi {url : Chars} (h : '/' ∉ url) (hs : ';' ∈ url) :
    splitparamsL url = (url.takeWhile (· ≠ ';'), (url.dropWhile (· ≠ ';')).tail) := by
  simp only [splitparamsL]
  rw [if_neg h, if_pos hs]

theorem splitparamsL_noslash_nosemi {url : Chars} (h : '/' ∉ url) (hs : ';' ∉ url) :
    splitparamsL url = (url.dropLast, url) := by
  simp only [splitparamsL]
  rw [if_neg h, if_neg hs]

theorem dropWhile_semi_cons {l : Chars} (h : ';' ∈ l) :
    l.takeWhile (· ≠ ';') ++ ';' :: (l.dropWhile (· ≠ ';')).tail = l := by
  obtain ⟨c, w, hd⟩ : ∃ c w, l.dropWhile (· ≠ ';') = c :: w := by
    cases hdw : l.dropWhile (· ≠ ';') with
    | nil => exact absurd hdw (dropWhile_ne_nil_of_mem h)
    | cons c w => exact ⟨c, w, rfl⟩
  have hc : c = ';' := by
    have := mem_of_dropWhile_ne_nil hd
    simpa using this
  subst hc
  have hsplit := List.takeWhile_append_dropWhile (p := fun c => decide ¬(c = ';')) (l := l)
  rw [hd] at hsplit
  rw [hd]
  exact hsplit

theorem splitparamsL_sub1 (url : Chars) : (splitparamsL url).1 ⊆ url := by
  by_cases h : '/' ∈ url
  · obtain ⟨A, B, hurl, hB, ha, hb⟩ := lastSlash_decomp h
    by_cases hsB : ';' ∈ B
    · rw [splitparamsL_slash_semi h ha hb hsB]
      intro c hc
      rw [hurl]
      rcases List.mem_append.mp hc with hc | hc
      · rcases List.mem_append.mp hc with hc | hc
        · exact List.mem_append_left _ hc
        · rw [List.mem_singleton] at hc
          subst hc
          exact List.mem_append_right _ (List.mem_cons_self _ _)
      · exact List.mem_append_right _ (List.mem_cons_of_mem _ (List.takeWhile_subset _ hc))
    · rw [splitparamsL_slash_nosemi h hb hsB]
      exact fun c hc => hc
  · by_cases hs : ';' ∈ url
    · rw [splitparamsL_noslash_semi h hs]
      exact fun c hc => List.takeWhile_subset _ hc
    · rw [splitparamsL_noslash_nosemi h hs]
      exact fun c hc => (List.dropLast_sublist url).subset hc

theorem splitparamsL_sub2 (url : Chars) : (splitparamsL url).2 ⊆ url := by
  by_cases h : '/' ∈ url
  · obtain ⟨A, B, hurl, hB, ha, hb⟩ := lastSlash_decomp h
    by_cases hsB : ';' ∈ B
    · rw [splitparamsL_slash_semi h ha hb hsB]
      intro c hc
      rw [hurl]
      exact List.mem_append_right _
        (List.mem_cons_of_mem _ (List.dropWhile_subset _ (List.mem_of_mem_tail hc)))
    · rw [splitparamsL_slash_nosemi h hb hsB]
      exact fun c hc => absurd hc (List.not_mem_nil c)
  · by_cases hs : ';' ∈ url
    · rw [splitparamsL_noslash_semi h hs]
      exact fun c hc => List.dropWhile_subset _ (List.mem_of_mem_tail hc)
    · rw [splitparamsL_noslash_nosemi h hs]
      exact fun c hc => hc

theorem splitparamsL_rejoin {url : Chars} (hsemi : ';' ∈ url)
    (h2 : (splitparamsL url).2 ≠ []) :
    (splitparamsL url).1 ++ ';' :: (splitparamsL url).2 = url := by
  by_cases h : '/' ∈ url
  · obtain ⟨A, B, hurl, hB, ha, hb⟩ := lastSlash_decomp h
    by_cases hsB : ';' ∈ B
    · rw [splitparamsL_slash_semi h ha hb hsB]
      dsimp only
      rw [List.append_assoc, dropWhile_semi_cons hsB, hurl]
      simp
    · rw [splitparamsL_slash_nosemi h hb hsB] at h2
      exact absurd rfl h2
  · by_cases hs : ';' ∈ url
    · rw [splitparamsL_noslash_semi h hs]
      exact dropWhile_semi_cons hs
    · exact absurd hsemi hs

theorem splitparamsL_shape {url : Chars} (h : url = [] ∨ ∃ t, url = '/' :: t) :
    ((splitparamsL url).1 = [] ∧ (splitparamsL url).2 = []) ∨
      ∃ t, (splitparamsL url).1 = '/' :: t := by
  rcases h with rfl | ⟨t, rfl⟩
  · left
    constructor
    · rfl
    · rfl
  · have h : '/' ∈ ('/' :: t : Chars) := List.mem_cons_self _ _
    obtain ⟨A, B, hurl, hB, ha, hb⟩ := lastSlash_decomp h
    by_cases hsB : ';' ∈ B
    · rw [splitparamsL_slash_semi h ha hb hsB]
      right
      dsimp only
      cases hA : A with
      | nil => exact ⟨B.takeWhile (· ≠ ';'), by simp⟩
      | cons x w =>
        rw [hA, List.cons_append] at hurl
        injection hurl with h1 h2
        subst h1
        exact ⟨(w ++ ['/']) ++ B.takeWhile (· ≠ ';'), by simp⟩
    · rw [splitparamsL_slash_nosemi h hb hsB]
      exact Or.inr ⟨t, rfl⟩

theorem revSplit_lastSlash {A C : Chars} (hC : '/' ∉ C) :
    ((((A ++ ['/']) ++ C).reverse).takeWhile (· ≠ '/')).reverse = C ∧
    ((((A ++ ['/']) ++ C).reverse).dropWhile (· ≠ '/')).reverse = A ++ ['/'] := by
  have hrev : ((A ++ ['/']) ++ C).reverse = C.reverse ++ '/' :: A.reverse := by
    simp [List.reverse_append]
  rw [hrev]
  have hCrev : ∀ c ∈ C.reverse, (decide ¬(c = '/')) = true :=
    ne_decide_all (by simpa using hC)
  constructor
  · rw [takeWhile_append_all _ hCrev, List.takeWhile_cons_of_neg (by simp), List.append_nil,
      List.reverse_reverse]
  · rw [dropWhile_append_all _ hCrev, List.dropWhile_cons_of_neg (by simp)]
    simp

theorem parseParamsStep_idem (scheme rest : Chars) :
    parseParamsStep scheme
      (rejoinParams (parseParamsStep scheme rest).1 (parseParamsStep scheme rest).2) =
      parseParamsStep scheme rest := by
  by_cases hc : scheme ∈ uses_params ∧ ';' ∈ rest
  · have hps : parseParamsStep scheme rest = splitparamsL rest := by
      rw [parseParamsStep, if_pos hc]
    rw [hps]
    by_cases h2 : (splitparamsL rest).2 = []
    · rw [rejoinParams, if_neg (by simpa using h2)]
      by_cases h : '/' ∈ rest
      · obtain ⟨A, B, hurl, hB, ha, hb⟩ := lastSlash_decomp h
        by_cases hsB : ';' ∈ B
        · rw [splitparamsL_slash_semi h ha hb hsB] at h2 ⊢
          dsimp only at h2 ⊢
          have hB1slash : '/' ∉ B.takeWhile (· ≠ ';') :=
            fun hx => hB (List.takeWhile_subset _ hx)
          have hB1semi : ';' ∉ B.takeWhile (· ≠ ';') :=
            fun hx => by simpa using pred_of_mem_takeWhile hx
          rw [parseParamsStep]
          by_cases hc2 : scheme ∈ uses_params ∧ ';' ∈ (A ++ ['/']) ++ B.takeWhile (· ≠ ';')
          · rw [if_pos hc2]
            have hslP : '/' ∈ (A ++ ['/']) ++ B.takeWhile (· ≠ ';') :=
              List.mem_append_left _ (List.mem_append_right _ (List.mem_singleton.mpr rfl))
            rw [splitparamsL_slash_nosemi hslP (revSplit_lastSlash hB1slash).1 hB1semi, h2]
          · rw [if_neg hc2, h2]
        · rw [splitparamsL_slash_nosemi h hb hsB]
          dsimp only
          rw [parseParamsStep, if_pos hc, splitparamsL_slash_nosemi h hb hsB]
      · have hs : ';' ∈ rest := hc.2
        rw [splitparamsL_noslash_semi h hs] at h2 ⊢
        dsimp only at h2 ⊢
        have hPsemi : ';' ∉ rest.takeWhile (· ≠ ';') :=
          fun hx => by simpa using pred_of_mem_takeWhile hx
        rw [parseParamsStep, if_neg (fun hx => hPsemi hx.2)]
        rw [h2]
    · rw [rejoinParams, if_pos (by simpa using h2)]
      rw [splitparamsL_rejoin hc.2 h2]
      rw [parseParamsStep, if_pos hc]
  · have hps : parseParamsStep scheme rest = (rest, []) := by
      rw [parseParamsStep, if_neg hc]
    rw [hps]
    dsimp only
    rw [rejoinParams, if_neg (by simp)]
    rw [parseParamsStep, if_neg hc]

theorem parseParamsStep_sub1 (scheme rest : Chars) :
    (parseParamsStep scheme rest).1 ⊆ rest := by
  rw [parseParamsStep]
  split
  · exact splitparamsL_sub1 rest
  · exact fun c hc => hc

theorem parseParamsStep_sub2 (scheme rest : Chars) :
    (parseParamsStep scheme rest).2 ⊆ rest := by
  rw [parseParamsStep]
  split
  · exact splitparamsL_sub2 rest
  · exact fun c hc => absurd hc (List.not_mem_nil c)

theorem parseParamsStep_shape (scheme : Chars) {rest : Chars}
    (h : rest = [] ∨ ∃ t, rest = '/' :: t) :
    ((parseParamsStep scheme rest).1 = [] ∧ (parseParamsStep scheme rest).2 = []) ∨
      ∃ t, (parseParamsStep scheme rest).1 = '/' :: t := by
  rw [parseParamsStep]
  split
  · exact splitparamsL_shape h
  · rcases h with rfl | ⟨t, rfl⟩
    · exact Or.inl ⟨rfl, rfl⟩
    · exact Or.inr ⟨t, rfl⟩

theorem NoTab_subset {l m : Chars} (h : m ⊆ l) (hl : NoTab l) : NoTab m :=
  fun c hc => hl c (h hc)

theorem NoTab_append {a b : Chars} (ha : NoTab a) (hb : NoTab b) : NoTab (a ++ b) := by
  intro c hc
  rcases List.mem_append.mp hc with hc | hc
  · exact ha c hc
  · exact hb c hc

theorem NoTab_cons {c : Char} {t : Chars} (hc : tabCrLf c = false) (ht : NoTab t) :
    NoTab (c :: t) := by
  intro x hx
  rcases List.mem_cons.mp hx with rfl | hx
  · exact hc
  · exact ht x hx

theorem NoTab_nil : NoTab [] := fun c hc => absurd hc (List.not_mem_nil c)

theorem urlsplit_inv {u : Chars} {s : SplitRes} (h : urlsplitL u = some s) :
    SchemeOK s.scheme ∧ '#' ∉ s.rest ∧ '?' ∉ s.rest ∧ '#' ∉ s.query ∧
    NoTab s.rest ∧ NoTab s.query ∧ NoTab s.fragment ∧
    (s.netloc ≠ [] → s.rest = [] ∨ ∃ t, s.rest = '/' :: t) := by
  have hNT0 : NoTab ((u.dropWhile c0sp).filter (fun c => !tabCrLf c)) := by
    intro c hc
    have := List.of_mem_filter hc
    simpa using this
  have hNT1 : NoTab (splitScheme ((u.dropWhile c0sp).filter (fun c => !tabCrLf c))).2 :=
    NoTab_subset (splitScheme_sub2 _) hNT0
  simp only [urlsplitL] at h
  split at h
  · split at h
    · exact absurd h (by simp)
    · injection h with h
      subst h
      dsimp only
      set r := (splitScheme ((u.dropWhile c0sp).filter (fun c => !tabCrLf c))).2.drop 2 with hr
      have hNTr : NoTab r := NoTab_subset (List.drop_subset _ _) hNT1
      have hNTrest0 : NoTab (r.dropWhile (fun c => !netDelim c)) :=
        NoTab_subset (List.dropWhile_subset _) hNTr
      refine ⟨splitScheme_schemeOK _, splitFragQuery_noHash1 _, splitFragQuery_noQm1 _,
        splitFragQuery_noHash2 _,
        NoTab_subset (splitFragQuery_sub1 _) hNTrest0,
        NoTab_subset (splitFragQuery_sub2 _) hNTrest0,
        NoTab_subset (splitFragQuery_sub3 _) hNTrest0, ?_⟩
      intro _
      cases hr0 : r.dropWhile (fun c => !netDelim c) with
      | nil => exact Or.inl rfl
      | cons c t =>
        have hdelim : netDelim c = true := by
          have := mem_of_dropWhile_ne_nil hr0
          simpa using this
        rw [netDelim] at hdelim
        simp only [Bool.or_eq_true, decide_eq_true_iff] at hdelim
        rcases hdelim with (rfl | rfl) | rfl
        · right
          refine ⟨(t.takeWhile (· ≠ '#')).takeWhile (· ≠ '?'), ?_⟩
          simp only [splitFragQuery, splitOnceL]
          rw [List.takeWhile_cons_of_pos (by decide), List.takeWhile_cons_of_pos (by decide)]
        · left
          simp only [splitFragQuery, splitOnceL]
          rw [List.takeWhile_cons_of_pos (by decide), List.takeWhile_cons_of_neg (by decide)]
        · left
          simp only [splitFragQuery, splitOnceL]
          rw [List.takeWhile_cons_of_neg (by decide)]
          rfl
  · injection h with h
    subst h
    dsimp only
    refine ⟨splitScheme_schemeOK _, splitFragQuery_noHash1 _, splitFragQuery_noQm1 _,
      splitFragQuery_noHash2 _,
      NoTab_subset (splitFragQuery_sub1 _) hNT1,
      NoTab_subset (splitFragQuery_sub2 _) hNT1,
      NoTab_subset (splitFragQuery_sub3 _) hNT1, ?_⟩
    intro hn
    exact absurd rfl hn

theorem urlparse_inv {u : Chars} {p : ParseRes} (h : urlparseL u = some p) : ParsedOK p := by
  rw [urlparseL] at h
  cases hs : urlsplitL u with
  | none => rw [hs] at h; exact absurd h (by simp)
  | some s =>
    rw [hs] at h
    simp only [Option.some.injEq] at h
    subst h
    obtain ⟨hS, hrh, hrq, hqh, hNTr, hNTq, hNTf, hshape⟩ := urlsplit_inv hs
    refine ⟨hS, fun hx => hrh (parseParamsStep_sub1 _ _ hx),
      fun hx => hrq (parseParamsStep_sub1 _ _ hx),
      fun hx => hrh (parseParamsStep_sub2 _ _ hx),
      fun hx => hrq (parseParamsStep_sub2 _ _ hx),
      hqh,
      NoTab_subset (parseParamsStep_sub1 _ _) hNTr,
      NoTab_subset (parseParamsStep_sub2 _ _) hNTr,
      hNTq, hNTf, ?_, ?_⟩
    · intro hn
      exact parseParamsStep_shape _ (hshape hn)
    · have := parseParamsStep_idem s.scheme s.rest
      dsimp only
      rw [this]

theorem splitScheme_app {s : Chars} (r : Chars) (hne : s ≠ []) (hh : headIsAlpha s = true)
    (hall : s.all schemeChar = true) (hlow : s.map Char.toLower = s) :
    splitScheme (s ++ ':' :: r) = (s, r) := by
  have hnc : ':' ∉ s := fun hc => absurd (List.all_eq_true.mp hall ':' hc) (by decide)
  have hpre : (s ++ ':' :: r).takeWhile (· ≠ ':') = s := by
    rw [takeWhile_append_all _ (ne_decide_all hnc), List.takeWhile_cons_of_neg (by simp),
      List.append_nil]
  have hpost : (s ++ ':' :: r).dropWhile (· ≠ ':') = ':' :: r := by
    rw [dropWhile_append_all _ (ne_decide_all hnc), List.dropWhile_cons_of_neg (by simp)]
  simp only [splitScheme, hpre, hpost]
  rw [if_neg (by simp), if_pos ⟨hne, hh, hall⟩, hlow]
  rfl

theorem splitScheme_headNotAlpha {c : Char} (X : Chars) (hc : c.isAlpha = false) :
    splitScheme (c :: X) = ([], c :: X) := by
  simp only [splitScheme]
  split
  · rfl
  · rw [if_neg]
    rintro ⟨h1, h2, h3⟩
    by_cases hcc : c = ':'
    · subst hcc
      rw [List.takeWhile_cons_of_neg (by simp)] at h1
      exact h1 rfl
    · rw [List.takeWhile_cons_of_pos (by simpa using hcc)] at h2
      simp only [headIsAlpha] at h2
      rw [hc] at h2
      exact Bool.false_ne_true h2

theorem urlsplit_of_shape {sch M tail : Chars}
    (hS : SchemeOK sch) (hM : MirrorHost M)
    (htail : tail = [] ∨ ∃ c t', tail = c :: t' ∧ netDelim c = true)
    (hNTtail : NoTab tail) :
    urlsplitL ((if sch ≠ [] then sch ++ [':'] else []) ++ '/' :: '/' :: (M ++ tail)) =
      some ⟨sch, M, (splitFragQuery tail).1, (splitFragQuery tail).2.1,
        (splitFragQuery tail).2.2⟩ := by
  obtain ⟨hMne, hMbr1, hMbr2, hMchars⟩ := hM
  have hNTm : NoTab ((if sch ≠ [] then sch ++ [':'] else []) ++ '/' :: '/' :: (M ++ tail)) := by
    refine NoTab_append ?_ (NoTab_cons (by decide) (NoTab_cons (by decide)
      (NoTab_append (fun c hc => (hMchars c hc).2) hNTtail)))
    split
    · next hne =>
      rcases hS with rfl | ⟨hh, hall, hlow⟩
      · exact absurd rfl hne
      · refine NoTab_append ?_ (NoTab_cons (by decide) NoTab_nil)
        exact fun c hc => schemeChar_not_tabCrLf c (List.all_eq_true.mp hall c hc)
    · exact NoTab_nil
  have hdropA : ((if sch ≠ [] then sch ++ [':'] else []) ++
      '/' :: '/' :: (M ++ tail)).dropWhile c0sp =
      (if sch ≠ [] then sch ++ [':'] else []) ++ '/' :: '/' :: (M ++ tail) := by
    split
    · next hne =>
      rcases hS with rfl | ⟨hh, hall, hlow⟩
      · exact absurd rfl hne
      · cases hsch : sch with
        | nil => exact absurd hsch hne
        | cons c t =>
          rw [hsch] at hh
          simp only [headIsAlpha] at hh
          rw [List.cons_append, List.cons_append, List.dropWhile_cons_of_neg]
          rw [isAlpha_not_c0sp c hh]
          exact Bool.false_ne_true
    · rw [List.nil_append, List.dropWhile_cons_of_neg (by decide)]
  have hfilt : ∀ l : Chars, NoTab l → l.filter (fun c => !tabCrLf c) = l := by
    intro l hl
    rw [List.filter_eq_self]
    intro c hc
    rw [hl c hc]
    rfl
  have hsplitSch : splitScheme ((if sch ≠ [] then sch ++ [':'] else []) ++
      '/' :: '/' :: (M ++ tail)) = (sch, '/' :: '/' :: (M ++ tail)) := by
    split
    · next hne =>
      rcases hS with rfl | ⟨hh, hall, hlow⟩
      · exact absurd rfl hne
      · rw [List.append_assoc, List.singleton_append]
        exact splitScheme_app _ hne hh hall hlow
    · next hne =>
      have hsnil : sch = [] := by
        by_contra hx
        exact hne hx
      subst hsnil
      rw [List.nil_append]
      exact splitScheme_headNotAlpha _ (by decide)
  have hMall : ∀ c ∈ M, (!netDelim c) = true := by
    intro c hc
    rw [(hMchars c hc).1]
    rfl
  have htailTake : tail.takeWhile (fun c => !netDelim c) = [] := by
    rcases htail with rfl | ⟨c, t', rfl, hcd⟩
    · rfl
    · rw [List.takeWhile_cons_of_neg (by simp [hcd])]
  have htailDrop : tail.dropWhile (fun c => !netDelim c) = tail := by
    rcases htail with rfl | ⟨c, t', rfl, hcd⟩
    · rfl
    · rw [List.dropWhile_cons_of_neg (by simp [hcd])]
  have hnetTake : (M ++ tail).takeWhile (fun c => !netDelim c) = M := by
    rw [takeWhile_append_all _ hMall, htailTake, List.append_nil]
  have hnetDrop : (M ++ tail).dropWhile (fun c => !netDelim c) = tail := by
    rw [dropWhile_append_all _ hMall, htailDrop]
  simp only [urlsplitL, hdropA, hfilt _ hNTm, hsplitSch]
  simp only [List.drop_succ_cons, List.drop_zero, List.take_succ_cons, List.take_zero,
    hnetTake, hnetDrop]
  rw [if_pos trivial, if_neg]
  rintro (⟨h1, _⟩ | ⟨h1, _⟩)
  · exact hMbr1 h1
  · exact hMbr2 h1

theorem urlunparse_shape (p : ParseRes) {M : Chars} (hMne : M ≠ []) :
    urlunparseL { p with netloc := M } =
      (if p.scheme ≠ [] then p.scheme ++ [':'] else []) ++
        '/' :: '/' :: (M ++
          ((if rejoinParams p.path p.params ≠ [] ∧
               (rejoinParams p.path p.params).take 1 ≠ ['/']
            then '/' :: rejoinParams p.path p.params
            else rejoinParams p.path p.params) ++
           ((if p.query ≠ [] then '?' :: p.query else []) ++
            (if p.fragment ≠ [] then '#' :: p.fragment else [])))) := by
  rw [urlunparseL, urlunsplitL]
  rw [if_pos (Or.inl hMne)]
  split_ifs <;> simp [List.append_assoc]

theorem u2_shape (pp : Chars) :
    (if pp ≠ [] ∧ pp.take 1 ≠ ['/'] then '/' :: pp else pp) = [] ∨
      ∃ w, (if pp ≠ [] ∧ pp.take 1 ≠ ['/'] then '/' :: pp else pp) = '/' :: w := by
  split
  · exact Or.inr ⟨pp, rfl⟩
  · next h =>
    cases hpp : pp with
    | nil => exact Or.inl rfl
    | cons c t =>
      right
      rw [hpp] at h
      have : c = '/' := by
        by_contra hc
        exact h ⟨List.cons_ne_nil c t, by simpa using hc⟩
      subst this
      exact ⟨t, rfl⟩

theorem tail_head_of {u2 : Chars} (q f : Chars) (hu : u2 = [] ∨ ∃ w, u2 = '/' :: w) :
    u2 ++ ((if q ≠ [] then '?' :: q else []) ++ (if f ≠ [] then '#' :: f else [])) = [] ∨
      ∃ c t', u2 ++ ((if q ≠ [] then '?' :: q else []) ++
        (if f ≠ [] then '#' :: f else [])) = c :: t' ∧ netDelim c = true := by
  rcases hu with rfl | ⟨w, rfl⟩
  · rw [List.nil_append]
    split
    · exact Or.inr ⟨'?', _, by rw [List.cons_append], by decide⟩
    · split
      · exact Or.inr ⟨'#', _, rfl, by decide⟩
      · exact Or.inl rfl
  · exact Or.inr ⟨'/', _, by rw [List.cons_append], by decide⟩

theorem NoTab_rejoin {path params : Chars} (hp : NoTab path) (hq : NoTab params) :
    NoTab (rejoinParams path params) := by
  rw [rejoinParams]
  split
  · exact NoTab_append hp (NoTab_cons (by decide) hq)
  · exact hp

theorem NoTab_tail_of {u2 q f : Chars} (hu : NoTab u2) (hq : NoTab q) (hf : NoTab f) :
    NoTab (u2 ++ ((if q ≠ [] then '?' :: q else []) ++ (if f ≠ [] then '#' :: f else []))) := by
  refine NoTab_append hu (NoTab_append ?_ ?_)
  · split
    · exact NoTab_cons (by decide) hq
    · exact NoTab_nil
  · split
    · exact NoTab_cons (by decide) hf
    · exact NoTab_nil

theorem NoTab_u2 {pp : Chars} (hpp : NoTab pp) :
    NoTab (if pp ≠ [] ∧ pp.take 1 ≠ ['/'] then '/' :: pp else pp) := by
  split
  · exact NoTab_cons (by decide) hpp
  · exact hpp

theorem reparse_netloc (p : ParseRes) (M : Chars) (hM : MirrorHost M)
    (hS : SchemeOK p.scheme) (hNTpath : NoTab p.path) (hNTparams : NoTab p.params)
    (hNTquery : NoTab p.query) (hNTfrag : NoTab p.fragment) :
    ∃ q : ParseRes, urlparseL (urlunparseL { p with netloc := M }) = some q ∧
      q.netloc = M := by
  rw [urlunparse_shape p hM.1]
  have hsplit := urlsplit_of_shape hS hM
    (tail_head_of p.query p.fragment (u2_shape (rejoinParams p.path p.params)))
    (NoTab_tail_of (NoTab_u2 (NoTab_rejoin hNTpath hNTparams)) hNTquery hNTfrag)
  rw [urlparseL]
  rw [hsplit]
  exact ⟨_, rfl, rfl⟩

theorem noHash_rejoin {path params : Chars} (hp : '#' ∉ path) (hq : '#' ∉ params) :
    '#' ∉ rejoinParams path params := by
  rw [rejoinParams]
  split
  · intro hx
    rcases List.mem_append.mp hx with hx | hx
    · exact hp hx
    · rcases List.mem_cons.mp hx with h | hx
      · exact absurd h (by decide)
      · exact hq hx
  · exact hp

theorem noQm_rejoin {path params : Chars} (hp : '?' ∉ path) (hq : '?' ∉ params) :
    '?' ∉ rejoinParams path params := by
  rw [rejoinParams]
  split
  · intro hx
    rcases List.mem_append.mp hx with hx | hx
    · exact hp hx
    · rcases List.mem_cons.mp hx with h | hx
      · exact absurd h (by decide)
      · exact hq hx
  · exact hp

theorem splitFragQuery_rejoin {pp q f : Chars} (hph : '#' ∉ pp) (hpq : '?' ∉ pp)
    (hqh : '#' ∉ q) :
    splitFragQuery (pp ++ ((if q ≠ [] then '?' :: q else []) ++
      (if f ≠ [] then '#' :: f else []))) = (pp, q, f) := by
  have hqp : '#' ∉ pp ++ (if q ≠ [] then '?' :: q else []) := by
    intro hx
    rcases List.mem_append.mp hx with hx | hx
    · exact hph hx
    · revert hx
      split
      · intro hx
        rcases List.mem_cons.mp hx with h | hx
        · exact absurd h (by decide)
        · exact hqh hx
      · intro hx
        exact absurd hx (List.not_mem_nil _)
  rw [splitFragQuery]
  have hstep1 : splitOnceL '#' (pp ++ ((if q ≠ [] then '?' :: q else []) ++
      (if f ≠ [] then '#' :: f else []))) = (pp ++ (if q ≠ [] then '?' :: q else []), f) := by
    by_cases hf : f ≠ []
    · rw [if_pos hf, ← List.append_assoc]
      exact splitOnceL_app f hqp
    · have hf0 : f = [] := by
        by_contra hx
        exact hf hx
      subst hf0
      rw [if_neg (show ¬(([] : Chars) ≠ []) from by simp), List.append_nil]
      exact splitOnceL_no_sep hqp
  rw [hstep1]
  have hstep2 : splitOnceL '?' (pp ++ (if q ≠ [] then '?' :: q else [])) = (pp, q) := by
    by_cases hq : q ≠ []
    · rw [if_pos hq]
      exact splitOnceL_app q hpq
    · have hq0 : q = [] := by
        by_contra hx
        exact hq hx
      subst hq0
      rw [if_neg (show ¬(([] : Chars) ≠ []) from by simp), List.append_nil]
      exact splitOnceL_no_sep hpq
  rw [hstep2]

theorem reparse_full (p : ParseRes) (M : Chars) (hM : MirrorHost M) (hPO : ParsedOK p)
    (hshape : (p.path = [] ∧ p.params = []) ∨ ∃ t, p.path = '/' :: t) :
    urlparseL (urlunparseL { p with netloc := M }) = some { p with netloc := M } := by
  have hu2 : (if rejoinParams p.path p.params ≠ [] ∧
      (rejoinParams p.path p.params).take 1 ≠ ['/']
      then '/' :: rejoinParams p.path p.params
      else rejoinParams p.path p.params) = rejoinParams p.path p.params := by
    rcases hshape with ⟨hp0, hpr0⟩ | ⟨t, hpt⟩
    · rw [hp0, hpr0]
      simp [rejoinParams]
    · have hhead : ∃ w, rejoinParams p.path p.params = '/' :: w := by
        rw [rejoinParams]
        split
        · exact ⟨t ++ ';' :: p.params, by rw [hpt, List.cons_append]⟩
        · exact ⟨t, hpt⟩
      obtain ⟨w, hw⟩ := hhead
      rw [hw, if_neg]
      rintro ⟨_, h2⟩
      exact h2 (by simp)
  have hrsh : rejoinParams p.path p.params = [] ∨
      ∃ w, rejoinParams p.path p.params = '/' :: w := by
    rcases hshape with ⟨hp0, hpr0⟩ | ⟨t, hpt⟩
    · left
      rw [rejoinParams, hp0, hpr0]
      simp
    · right
      rw [rejoinParams]
      split
      · exact ⟨t ++ ';' :: p.params, by rw [hpt, List.cons_append]⟩
      · exact ⟨t, hpt⟩
  rw [urlunparse_shape p hM.1, hu2]
  have hsplit := urlsplit_of_shape hPO.schemeOK hM
    (tail_head_of p.query p.fragment hrsh)
    (NoTab_tail_of (NoTab_rejoin hPO.pathNT hPO.paramsNT) hPO.queryNT hPO.fragNT)
  rw [urlparseL]
  rw [hsplit]
  have hfq := @splitFragQuery_rejoin (rejoinParams p.path p.params)
    p.query p.fragment
    (noHash_rejoin hPO.pathNoHash hPO.paramsNoHash)
    (noQm_rejoin hPO.pathNoQm hPO.paramsNoQm) hPO.queryNoHash
  simp only [hfq]
  have hpr := hPO.paramsRejoin
  rw [hpr]

theorem mirror_facts {k M : Chars} (h : pyDictGet k DEFAULT_MIRRORS = some M) :
    MirrorHost M ∧ M ∈ SKIP_HOSTS ∧ ((pyHostname M).getD []).map Char.toLower = M := by
  simp only [DEFAULT_MIRRORS, pyDictGet] at h
  split_ifs at h <;> simp only [Option.some.injEq] at h <;> rw [← h] <;>
    exact ⟨by unfold MirrorHost; decide, by decide, by decide⟩

theorem rewriteOne_swapped (r2 : Chars → Option Chars) {p : ParseRes} (hPO : ParsedOK p)
    {k M : Chars} (hk : pyDictGet k DEFAULT_MIRRORS = some M) :
    rewriteOne r2 (urlunparseL { p with netloc := M }) = (none, none) := by
  obtain ⟨hMH, hskip, hhost⟩ := mirror_facts hk
  obtain ⟨q, hq, hqn⟩ := reparse_netloc p M hMH hPO.schemeOK hPO.pathNT hPO.paramsNT
    hPO.queryNT hPO.fragNT
  have hh : hostOf q = M := by
    rw [hostOf, hqn, hhost]
  rw [rewriteOne]
  rw [hq]
  dsimp only
  rw [if_pos (Or.inr (by rw [hh]; exact hskip))]

theorem ig_step_extract {p : ParseRes} (hPO : ParsedOK p) {canonical m : Chars}
    {c : Option Chars} (h : igMirrorStep p canonical = (some m, c)) :
    ∃ p2 : ParseRes, ParsedOK p2 ∧
      m = urlunparseL { p2 with netloc := cs "kkinstagram.com" } := by
  rw [igMirrorStep] at h
  split at h
  · exact absurd h (by simp)
  split at h
  · split at h
    · next heq => exact absurd heq (by decide)
    · next mirror heq =>
      rw [show pyDictGet (cs "instagram.com") DEFAULT_MIRRORS = some (cs "kkinstagram.com")
        from by decide] at heq
      injection heq with heq
      subst heq
      rw [if_neg (by decide)] at h
      have hm : some (urlunparseL { p with netloc := cs "kkinstagram.com" }) = some m :=
        congrArg Prod.fst h
      simp only [Option.some.injEq] at hm
      exact ⟨p, hPO, hm.symm⟩
  · exact absurd h (by simp)

theorem rewriteInstagram_mirror {resolve : Chars → Option Chars} {url m : Chars}
    {c : Option Chars} (h : rewriteInstagram resolve url = some (some m, c)) :
    ∃ p2 : ParseRes, ParsedOK p2 ∧
      m = urlunparseL { p2 with netloc := cs "kkinstagram.com" } := by
  rw [rewriteInstagram] at h
  split at h
  · exact absurd h (by simp)
  · next p hp =>
    split at h
    · split at h
      · exact absurd h (by simp)
      · next final hr =>
        split at h
        · exact absurd h (by simp)
        · split at h
          · exact absurd h (by simp)
          · next p2 hp2 =>
            simp only [Option.some.injEq] at h
            exact ig_step_extract (urlparse_inv hp2) h
    · simp only [Option.some.injEq] at h
      exact ig_step_extract (urlparse_inv hp) h

/-! Claim C1: rewriting is idempotent at the output. -/

/-- C1: every mirror URL `_rewrite_one` produces parses back to a host that
is exactly the mirror host, every mirror host in `DEFAULT_MIRRORS`' value
set is a member of `SKIP_HOSTS`, and so applying `_rewrite_one` to the
mirror URL short-circuits at the skip check and returns neither a mirror
nor a canonical URL — for any network behaviour on either call. -/
theorem C1_rewrite_idempotent (resolve resolve2 : Chars → Option Chars)
    (url m : Chars) (c : Option Chars)
    (h : rewriteOne resolve url = (some m, c)) :
    rewriteOne resolve2 m = (none, none) := by
  rw [rewriteOne] at h
  cases hp : urlparseL url with
  | none =>
    rw [hp] at h
    simp only [] at h
    exact absurd h (by simp)
  | some p =>
    rw [hp] at h
    simp only [] at h
    have hPO := urlparse_inv hp
    by_cases hsk : hostOf p = [] ∨ hostOf p ∈ SKIP_HOSTS
    · rw [if_pos hsk] at h
      exact absurd h (by simp)
    rw [if_neg hsk] at h
    by_cases hig : List.isSuffixOf (cs "instagram.com") (hostOf p) = true
    · rw [if_pos hig] at h
      cases hri : rewriteInstagram resolve url with
      | none =>
        rw [hri] at h
        simp only [] at h
        exact absurd h (by simp)
      | some r =>
        rw [hri] at h
        simp only [] at h
        obtain ⟨p2, hPO2, hm⟩ := rewriteInstagram_mirror
          (show rewriteInstagram resolve url = some (some m, c) by rw [hri, h])
        rw [hm]
        exact rewriteOne_swapped resolve2 hPO2
          (show pyDictGet (cs "instagram.com") DEFAULT_MIRRORS =
            some (cs "kkinstagram.com") from by decide)
    · rw [if_neg hig] at h
      cases hps : pickSource (hostOf p) with
      | none =>
        rw [hps] at h
        simp only [] at h
        exact absurd h (by simp)
      | some src =>
        rw [hps] at h
        simp only [] at h
        cases hmir : pyDictGet src DEFAULT_MIRRORS with
        | none =>
          rw [hmir] at h
          simp only [] at h
          exact absurd h (by simp)
        | some mirror =>
          rw [hmir] at h
          simp only [] at h
          by_cases hm0 : mirror = []
          · rw [if_pos hm0] at h
            exact absurd h (by simp)
          rw [if_neg hm0] at h
          have h1 := congrArg Prod.fst h
          dsimp only at h1
          split at h1
          · injection h1 with h1
            rw [← h1]
            exact rewriteOne_swapped resolve2 hPO hmir
          · exact absurd h1 (by simp)

/-- C1 witness: the theorem applied to a concrete rewrite of an `x.com`
URL, whose mirror URL is then rewritten to nothing. -/
theorem C1_rewrite_idempotent_witness :
    rewriteOne (fun _ => none) (cs "https://x.com/user/status/123") =
      (some (cs "https://fixupx.com/user/status/123"), none) ∧
    rewriteOne (fun _ => none) (cs "https://fixupx.com/user/status/123") = (none, none) :=
  ⟨by decide,
   C1_rewrite_idempotent (fun _ => none) (fun _ => none)
    (cs "https://x.com/user/status/123") (cs "https://fixupx.com/user/status/123") none
    (by decide)⟩

/-! Claim C6: the generic rewrite and URL components. -/

/-- C6 counterexample: the claim says nothing but the host component
changes; but the rewrite replaces the whole netloc, so a URL with an
explicit port loses it: the input parses with port `8080`, the output has
no port at all. -/
theorem C6_port_dropped_counterexample :
    rewriteOne (fun _ => none) (cs "https://x.com:8080/a") =
      (some (cs "https://fixupx.com/a"), none) ∧
    (urlparseL (cs "https://x.com:8080/a")).map (fun p => hostinfoPort p.netloc) =
      some (some (cs "8080")) ∧
    (urlparseL (cs "https://fixupx.com/a")).map (fun p => hostinfoPort p.netloc) =
      some none := by
  refine ⟨by decide, by decide, by decide⟩

/-- C6 amended: for every URL whose host classifies to a non-Instagram
SourceKey and passes the skip check, the produced mirror URL parses back
with scheme, path, params, query and fragment equal to the input's, and
with its netloc equal to the bare mirror host — the entire netloc is
replaced, so any userinfo or port of the input is dropped (the
counterexample shows the port difference). -/
theorem C6_components_preserved (resolve : Chars → Option Chars) (url m : Chars)
    (c : Option Chars) (p : ParseRes)
    (hp : urlparseL url = some p)
    (hig : ¬ List.isSuffixOf (cs "instagram.com") (hostOf p) = true)
    (h : rewriteOne resolve url = (some m, c)) :
    ∃ (src M : Chars) (q : ParseRes),
      pickSource (hostOf p) = some src ∧
      pyDictGet src DEFAULT_MIRRORS = some M ∧
      urlparseL m = some q ∧ q.netloc = M ∧
      q.scheme = p.scheme ∧ q.path = p.path ∧ q.params = p.params ∧
      q.query = p.query ∧ q.fragment = p.fragment := by
  rw [rewriteOne, hp] at h
  simp only [] at h
  have hPO := urlparse_inv hp
  by_cases hsk : hostOf p = [] ∨ hostOf p ∈ SKIP_HOSTS
  · rw [if_pos hsk] at h
    exact absurd h (by simp)
  rw [if_neg hsk, if_neg hig] at h
  cases hps : pickSource (hostOf p) with
  | none =>
    rw [hps] at h
    simp only [] at h
    exact absurd h (by simp)
  | some src =>
    rw [hps] at h
    simp only [] at h
    cases hmir : pyDictGet src DEFAULT_MIRRORS with
    | none =>
      rw [hmir] at h
      simp only [] at h
      exact absurd h (by simp)
    | some M =>
      rw [hmir] at h
      simp only [] at h
      by_cases hm0 : M = []
      · rw [if_pos hm0] at h
        exact absurd h (by simp)
      rw [if_neg hm0] at h
      have h1 := congrArg Prod.fst h
      dsimp only at h1
      have hnetne : p.netloc ≠ [] := by
        intro hnil
        have : hostOf p = [] := by
          rw [hostOf, hnil]
          rfl
        exact (not_or.mp hsk).1 this
      have hfull := reparse_full p M (mirror_facts hmir).1 hPO (hPO.shape hnetne)
      split at h1
      · injection h1 with h1
        refine ⟨src, M, { p with netloc := M }, rfl, hmir, ?_, rfl, rfl, rfl, rfl, rfl, rfl⟩
        rw [← h1]
        exact hfull
      · exact absurd h1 (by simp)

/-- C6 witness: the amended theorem applied to a URL with query and
fragment, whose components all survive the rewrite. -/
theorem C6_components_preserved_witness :
    ∃ (src M : Chars) (q : ParseRes),
      pickSource (hostOf ⟨cs "https", cs "x.com", cs "/user/status/123", [],
        cs "q=1", cs "f"⟩) = some src ∧
      pyDictGet src DEFAULT_MIRRORS = some M ∧
      urlparseL (cs "https://fixupx.com/user/status/123?q=1#f") = some q ∧ q.netloc = M ∧
      q.scheme = cs "https" ∧ q.path = cs "/user/status/123" ∧ q.params = [] ∧
      q.query = cs "q=1" ∧ q.fragment = cs "f" :=
  C6_components_preserved (fun _ => none) (cs "https://x.com/user/status/123?q=1#f")
    (cs "https://fixupx.com/user/status/123?q=1#f") none
    ⟨cs "https", cs "x.com", cs "/user/status/123", [], cs "q=1", cs "f"⟩
    (by decide) (by decide) (by decide)

/-! Claim C8: story-path Instagram URLs. -/

/-- C8: for every Instagram URL (host classified by suffix, not skipped)
whose canonical path — directly, or after share-link resolution to a
non-empty parseable final URL — begins with `/stories/`, `_rewrite_one`
returns the canonical URL with no mirror, and the on-message rewrite loop
therefore keeps nothing for that link. -/
theorem C8_story_no_mirror (resolve : Chars → Option Chars) (url canonical : Chars)
    (p q : ParseRes)
    (hp : urlparseL url = some p)
    (hskip : ¬ (hostOf p = [] ∨ hostOf p ∈ SKIP_HOSTS))
    (hig : List.isSuffixOf (cs "instagram.com") (hostOf p) = true)
    (hcanon :
      ((cs "/share/").isPrefixOf p.path = true ∧ resolve url = some canonical ∧
        canonical ≠ [] ∧ urlparseL canonical = some q) ∨
      (¬ (cs "/share/").isPrefixOf p.path = true ∧ canonical = url ∧ q = p))
    (hstory : storyPfx.isPrefixOf q.path = true) :
    rewriteOne resolve url = (none, some canonical) ∧
    rewritePhase resolve [url] = [] := by
  have hri : rewriteInstagram resolve url = some (none, some canonical) := by
    rw [rewriteInstagram, hp]
    simp only []
    rcases hcanon with ⟨hsh, hres, hne, hq⟩ | ⟨hsh, hceq, hqeq⟩
    · rw [if_pos hsh, hres]
      simp only []
      rw [if_neg hne, hq]
      simp only []
      rw [igMirrorStep, if_pos hstory]
    · subst hceq
      subst hqeq
      rw [if_neg hsh]
      rw [igMirrorStep, if_pos hstory]
  have hro : rewriteOne resolve url = (none, some canonical) := by
    rw [rewriteOne, hp]
    simp only []
    rw [if_neg hskip, if_pos hig, hri]
  refine ⟨hro, ?_⟩
  simp only [rewritePhase, rewriteLoop, List.not_mem_nil, if_false, hro]

/-- C8 witness: a direct story URL yields no mirror and an empty rewrite
set. -/
theorem C8_story_no_mirror_witness :
    rewriteOne (fun _ => none) (cs "https://instagram.com/stories/abc/999") =
      (none, some (cs "https://instagram.com/stories/abc/999")) ∧
    rewritePhase (fun _ => none) [cs "https://instagram.com/stories/abc/999"] = [] :=
  C8_story_no_mirror (fun _ => none) (cs "https://instagram.com/stories/abc/999")
    (cs "https://instagram.com/stories/abc/999")
    ⟨cs "https", cs "instagram.com", cs "/stories/abc/999", [], [], []⟩
    ⟨cs "https", cs "instagram.com", cs "/stories/abc/999", [], [], []⟩
    (by decide) (by decide) (by decide)
    (Or.inr ⟨by decide, rfl, rfl⟩) (by decide)

/-! Claim C5: description precedence in metadata extraction. -/

/-- A truthy caption is never overwritten by one ld+json item. -/
theorem ldItemStep_caption (st : Option JVal × Option JVal) (item : Option JVal)
    (h : pyTruthy st.2 = true) :
    (ldItemStep st item).2 = st.2 ∧ pyTruthy (ldItemStep st item).2 = true := by
  cases item with
  | none => exact ⟨rfl, h⟩
  | some v =>
    cases v with
    | jobj d =>
      constructor
      · simp only [ldItemStep, ldCaptionStep, if_pos h]
      · simp only [ldItemStep, ldCaptionStep, if_pos h]
        exact h
    | jbool b => exact ⟨rfl, h⟩
    | jnum n => exact ⟨rfl, h⟩
    | jstr s => exact ⟨rfl, h⟩
    | jarr xs => exact ⟨rfl, h⟩

/-- A truthy caption survives a whole item list. -/
theorem ldItems_caption (items : List (Option JVal)) :
    ∀ st : Option JVal × Option JVal, pyTruthy st.2 = true →
      (items.foldl ldItemStep st).2 = st.2 := by
  induction items with
  | nil => intro st _; rfl
  | cons x t ih =>
    intro st h
    have hx := ldItemStep_caption st x h
    calc (t.foldl ldItemStep (ldItemStep st x)).2
        = (ldItemStep st x).2 := ih _ hx.2
      _ = st.2 := hx.1

/-- A truthy caption survives the whole ld+json cascade. -/
theorem ldScan_caption (scripts : List (Option (Option JVal))) :
    ∀ st : Option JVal × Option JVal, pyTruthy st.2 = true →
      (ldScan st scripts).2 = st.2 := by
  induction scripts with
  | nil => intro st _; rfl
  | cons s t ih =>
    intro st h
    have hs : (ldScriptStep st s).2 = st.2 := by
      cases s with
      | none => rfl
      | some data => exact ldItems_caption _ st h
    have hs2 : pyTruthy (ldScriptStep st s).2 = true := by rw [hs]; exact h
    calc (ldScan (ldScriptStep st s) t).2
        = (ldScriptStep st s).2 := ih _ hs2
      _ = st.2 := hs

/-- C5 counterexample: the description meta value may be truthy (so it
overwrites the title-derived caption in `_parse_ig_from_og`) while
normalizing to the empty string; the caption entering the ld+json cascade
is then falsy and a script caption wins, so the extracted caption is not
the normalized description. -/
theorem C5_ws_description_counterexample :
    ogDescOf ⟨[⟨some (cs "og:title"), none, some (cs "Jane on Instagram: \"hi\"")⟩,
               ⟨some (cs "og:description"), none, some (cs " ")⟩],
              [some (some (.jobj [(cs "caption", some (.jstr (cs "from script")))]))]⟩ =
      some (cs " ") ∧
    igTitleMatch (pyStripWs (cs "Jane on Instagram: \"hi\"")) =
      some (cs "Jane", cs "hi") ∧
    extractOgTwitterMeta ⟨[⟨some (cs "og:title"), none, some (cs "Jane on Instagram: \"hi\"")⟩,
               ⟨some (cs "og:description"), none, some (cs " ")⟩],
              [some (some (.jobj [(cs "caption", some (.jstr (cs "from script")))]))]⟩ =
      some (some (cs "Jane"), some (cs "from script")) ∧
    cs "from script" ≠ truncate (compactWs (compactWs (cs " "))) 600 := by
  exact ⟨by decide, by decide, by decide, by decide⟩


/-- C5 amended: whenever the description meta value is present and
normalizes to a nonempty string, the extracted caption is exactly the
normalized, truncated description — regardless of the title, of the
ld+json scripts, and of what the author comes out as.  (The counterexample
shows the unamended claim fails when the truthy description normalizes to
the empty string.) -/
theorem C5_description_precedence (doc : IgDoc) (d : Chars) (au cap : Option Chars)
    (hd : ogDescOf doc = some d)
    (hdne : compactWs d ≠ [])
    (h : extractOgTwitterMeta doc = some (au, cap)) :
    cap = some (truncate (compactWs (compactWs d)) 600) := by
  have hdz : d ≠ [] := by
    intro h0
    exact hdne (by rw [h0]; rfl)
  have hac2 : (parseIgFromOg (ogTitleOf doc) (ogDescOf doc)).2 = some (compactWs d) := by
    rw [hd, parseIgFromOg.eq_def]
    simp only []
    rw [if_pos hdz]
  rw [extractOgTwitterMeta.eq_def] at h
  simp only [hac2, Option.map] at h
  have hcap : pyTruthy (some (JVal.jstr (compactWs d))) = true := by
    simp [pyTruthy, hdne]
  have hfin : finalizeStr (some (JVal.jstr (compactWs d))) (fun s => truncate (compactWs s) 600) =
      some (some (truncate (compactWs (compactWs d)) 600)) := by
    rw [finalizeStr.eq_def, if_pos hcap]
  cases hx : (parseIgFromOg (ogTitleOf doc) (ogDescOf doc)).1 with
  | none =>
    rw [hx] at h
    simp only [] at h
    rw [if_pos (by simp [pyTruthy])] at h
    have hsc : (ldScan (none, some (JVal.jstr (compactWs d))) doc.scripts).2 =
        some (JVal.jstr (compactWs d)) := ldScan_caption doc.scripts _ hcap
    rw [hsc, hfin] at h
    cases hfa : finalizeStr (ldScan (none, some (JVal.jstr (compactWs d))) doc.scripts).1
        compactWs with
    | none =>
      rw [hfa] at h
      simp only [] at h
      exact absurd h (by simp)
    | some author =>
      rw [hfa] at h
      simp only [Option.some.injEq, Prod.mk.injEq] at h
      exact h.2.symm
  | some s =>
    rw [hx] at h
    simp only [] at h
    by_cases hs : pyTruthy (some (JVal.jstr s)) = true
    · rw [if_neg (by simp [hs, hcap])] at h
      simp only [] at h
      have hfa2 : finalizeStr (some (JVal.jstr s)) compactWs = some (some (compactWs s)) := by
        rw [finalizeStr.eq_def, if_pos hs]
      rw [hfa2, hfin] at h
      simp only [Option.some.injEq, Prod.mk.injEq] at h
      exact h.2.symm
    · simp only [Bool.not_eq_true] at hs
      rw [if_pos (by simp [hs])] at h
      have hsc : (ldScan (some (JVal.jstr s), some (JVal.jstr (compactWs d))) doc.scripts).2 =
          some (JVal.jstr (compactWs d)) := ldScan_caption doc.scripts _ hcap
      rw [hsc, hfin] at h
      cases hfa : finalizeStr
          (ldScan (some (JVal.jstr s), some (JVal.jstr (compactWs d))) doc.scripts).1
          compactWs with
      | none =>
        rw [hfa] at h
        simp only [] at h
        exact absurd h (by simp)
      | some author =>
        rw [hfa] at h
        simp only [Option.some.injEq, Prod.mk.injEq] at h
        exact h.2.symm

/-- C5 witness: a document whose description normalizes to a nonempty
string; the extracted caption is the normalized description. -/
theorem C5_description_precedence_witness :
    some (cs "hello world") =
      some (truncate (compactWs (compactWs (cs " hello  world "))) 600) :=
  C5_description_precedence
    ⟨[⟨some (cs "og:description"), none, some (cs " hello  world ")⟩], []⟩
    (cs " hello  world ") none (some (cs "hello world"))
    (by decide) (by decide) (by decide)
